import Mathlib

/-!
# tcpx: middleware anchors, chain assembly and the two serve loops

A shallow embedding of `tcpx.go`: the registration API (`Use`, `UnUse`,
`UseGlobal`, `AddHandler`), the transport selection of `ListenAndServe`, the
chain assembly closure shared by the stream and the datagram loop, and the
panic boundaries of the tasks that run it.

Handlers are values of an arbitrary type `H` (Go function values). Go maps are
association lists with unique keys; the order in which `range` visits a map is
an input of the functions that iterate one.
-/

namespace Tcpx

/-! ## Go maps -/

/-- Value stored under key `k` (`v, ok := m[k]`). -/
def mapGet {K V : Type} [DecidableEq K] : List (K × V) → K → Option V
  | [], _ => none
  | (k', v) :: t, k => if k' = k then some v else mapGet t k

/-- Assignment `m[k] = v`: replaces the value of an existing key, adds a new key otherwise. -/
def mapSet {K V : Type} [DecidableEq K] : List (K × V) → K → V → List (K × V)
  | [], k, v => [(k, v)]
  | (k', v') :: t, k, v => if k' = k then (k, v) :: t else (k', v') :: mapSet t k v

/-- Values held by a map. -/
def mapValues {K V : Type} (m : List (K × V)) : List V := m.map Prod.snd

/-! ## Data model -/

/-- Errors returned by the serve functions. -/
inductive Error where
  | net (msg : String)
  | unsupportedNetwork (network : String)
  deriving DecidableEq, Repr

/-- Values passed to `panic`, one constructor per panic site. -/
inductive Panic where
  | usePairs (n : Nat)
  | useKeyType (i : Nat)
  | useFuncType (j : Nat)
  | unUseKeyNotFound (k : String)
  | noHandlers (n : Nat)
  | nilMux
  | maxBufferSize (n : Nat)
  | listenPacket (err : Error)
  | user (msg : String)
  deriving DecidableEq, Repr

/-- Modelled from the spec: the record `MiddlewareAnchor`
(`{ key, fn, anchor_index, expire_index }`), declared outside `tcpx.go`; the
field names are the ones `tcpx.go` assigns. -/
structure MiddlewareAnchor (H : Type) where
  MiddlewareKey : String
  Middleware : H
  AnchorIndex : Nat
  ExpireAnchorIndex : Nat
  deriving DecidableEq, Repr

/-- Modelled from the spec: the record `MessageIDAnchor`
(`{ message_id, anchor_index }`), declared outside `tcpx.go`. -/
structure MessageIDAnchor where
  MessageID : Int
  AnchorIndex : Nat
  deriving DecidableEq, Repr

/-- Modelled from the spec: the router `Mux`, declared outside `tcpx.go`:
handlers by message id, global middlewares, anchored middlewares by key,
self-middlewares by message id, message-id anchors and the anchor counter. -/
structure Mux (H : Type) where
  Handlers : List (Int × H)
  GlobalMiddlewares : List H
  MiddlewareAnchorMap : List (String × MiddlewareAnchor H)
  MessageIDSelfMiddleware : List (Int × List H)
  MessageIDAnchorMap : List (Int × MessageIDAnchor)
  AnchorIndex : Nat
  deriving DecidableEq, Repr

/-- Modelled from the spec: `NewMux`, an empty router with counter zero. -/
def NewMux {H : Type} : Mux H := ⟨[], [], [], [], [], 0⟩

namespace Mux

variable {H : Type}

/-- Modelled from the spec: `CurrentAnchorIndex`, the value of the anchor counter. -/
def CurrentAnchorIndex (mux : Mux H) : Nat := mux.AnchorIndex

/-- Modelled from the spec: `AddMiddlewareAnchor` (`use`): "inserts or replaces
a MiddlewareAnchor", "increments the counter by one per pair". -/
def AddMiddlewareAnchor (mux : Mux H) (a : MiddlewareAnchor H) : Mux H :=
  { mux with
    MiddlewareAnchorMap := mapSet mux.MiddlewareAnchorMap a.MiddlewareKey a
    AnchorIndex := mux.AnchorIndex + 1 }

/-- Modelled from the spec: `ReplaceMiddlewareAnchor` (`unuse`): stores the
anchor under its key and "increments the counter by one per key". -/
def ReplaceMiddlewareAnchor (mux : Mux H) (a : MiddlewareAnchor H) : Mux H :=
  { mux with
    MiddlewareAnchorMap := mapSet mux.MiddlewareAnchorMap a.MiddlewareKey a
    AnchorIndex := mux.AnchorIndex + 1 }

/-- Modelled from the spec: `AddGlobalMiddleware` (`use_global`): "appends to
global_middlewares". -/
def AddGlobalMiddleware (mux : Mux H) (mids : List H) : Mux H :=
  { mux with GlobalMiddlewares := mux.GlobalMiddlewares ++ mids }

/-- Modelled from the spec: `AddMessageIDSelfMiddleware`: the handlers become
"that message-id's self-middleware, in order", after the ones already there. -/
def AddMessageIDSelfMiddleware (mux : Mux H) (messageID : Int) (mids : List H) : Mux H :=
  { mux with
    MessageIDSelfMiddleware :=
      mapSet mux.MessageIDSelfMiddleware messageID
        ((mapGet mux.MessageIDSelfMiddleware messageID).getD [] ++ mids) }

/-- Modelled from the spec: `AddHandleFunc`: the handler "becomes THE handler
for message_id" (the last registration wins) and the registration "increments
anchor_index by one AFTER assignment". -/
def AddHandleFunc (mux : Mux H) (messageID : Int) (f : H) : Mux H :=
  { mux with
    Handlers := mapSet mux.Handlers messageID f
    AnchorIndex := mux.AnchorIndex + 1 }

/-- Modelled from the spec: `AddMessageIDAnchor`: records the anchor under its message id. -/
def AddMessageIDAnchor (mux : Mux H) (a : MessageIDAnchor) : Mux H :=
  { mux with MessageIDAnchorMap := mapSet mux.MessageIDAnchorMap a.MessageID a }

/-- Modelled from the spec: `AnchorIndexOfMessageID`: the anchor index recorded
for the message id, the zero value when none is recorded. -/
def AnchorIndexOfMessageID (mux : Mux H) (messageID : Int) : Nat :=
  match mapGet mux.MessageIDAnchorMap messageID with
  | some a => a.AnchorIndex
  | none => 0

end Mux

/-- The server `TcpX`; `Mux` is a pointer and may be nil. The codec `Packx` is
passed to the functions that use it. -/
structure TcpX (H : Type) where
  OnConnect : Option H
  OnMessage : Option H
  OnClose : Option H
  Mux : Option (Mux H)
  deriving DecidableEq, Repr

/-- Server made by `NewTcpX`: no hooks, a fresh router. -/
def NewTcpX {H : Type} : TcpX H := ⟨none, none, none, some NewMux⟩

/-- One argument of the variadic `Use(mids ...interface{})`. -/
inductive Arg (H : Type) where
  | str (s : String)
  | fn (f : H)
  | other
  deriving DecidableEq, Repr

/-! ## Registration (`Use`, `UnUse`, `UseGlobal`, `AddHandler`) -/

variable {H : Type}

/-- Router a method call on `tcpx.Mux` works on after the guard
`if tcpx.Mux == nil { tcpx.Mux = NewMux() }`. -/
def muxOrNew (tcpx : TcpX H) : Mux H :=
  match tcpx.Mux with
  | some mux => mux
  | none => NewMux

/-- Loop of `Use`: `for i := 0; i < len(mids)-1; i += 2`, on the arguments from
index `i` on. A panic leaves the pairs registered before it in place.
`NOT_EXPIRE` is a constant declared outside `tcpx.go`. -/
def useLoop (NOT_EXPIRE : Nat) : Mux H → List (Arg H) → Nat → Mux H × Option Panic
  | mux, a :: b :: rest, i =>
    match a with
    | .str middlewareKey =>
      match b with
      | .fn middleware =>
        useLoop NOT_EXPIRE
          (mux.AddMiddlewareAnchor
            { Middleware := middleware
              MiddlewareKey := middlewareKey
              AnchorIndex := mux.CurrentAnchorIndex
              ExpireAnchorIndex := NOT_EXPIRE })
          rest (i + 2)
      | _ => (mux, some (.useFuncType (i + 1)))
    | _ => (mux, some (.useKeyType i))
  | mux, _, _ => (mux, none)

/-- Method `TcpX.Use`: the server afterwards and the panic raised, if any. -/
def Use (NOT_EXPIRE : Nat) (tcpx : TcpX H) (mids : List (Arg H)) : TcpX H × Option Panic :=
  let mux := muxOrNew tcpx
  if mids.length % 2 ≠ 0 then
    ({ tcpx with Mux := some mux }, some (.usePairs mids.length))
  else
    let r := useLoop NOT_EXPIRE mux mids 0
    ({ tcpx with Mux := some r.1 }, r.2)

/-- Loop of `UnUse` over the keys, on a non-nil router. -/
def unUseLoop : Mux H → List String → Mux H × Option Panic
  | mux, [] => (mux, none)
  | mux, k :: ks =>
    match mapGet mux.MiddlewareAnchorMap k with
    | none => (mux, some (.unUseKeyNotFound k))
    | some middlewareAnchor =>
      unUseLoop
        (mux.ReplaceMiddlewareAnchor
          { middlewareAnchor with ExpireAnchorIndex := mux.CurrentAnchorIndex })
        ks

/-- Method `TcpX.UnUse`: no nil guard, so the first key dereferences a nil router. -/
def UnUse (tcpx : TcpX H) (middlewareKeys : List String) : TcpX H × Option Panic :=
  match tcpx.Mux with
  | none =>
    match middlewareKeys with
    | [] => (tcpx, none)
    | _ :: _ => (tcpx, some .nilMux)
  | some mux =>
    let r := unUseLoop mux middlewareKeys
    ({ tcpx with Mux := some r.1 }, r.2)

/-- Method `TcpX.UseGlobal`. -/
def UseGlobal (tcpx : TcpX H) (mids : List H) : TcpX H :=
  { tcpx with Mux := some ((muxOrNew tcpx).AddGlobalMiddleware mids) }

/-- Method `TcpX.AddHandler`: the server afterwards and the panic raised, if any. The
self-middlewares are added before the nil guard of the router. -/
def AddHandler (tcpx : TcpX H) (messageID : Int) (handlers : List H) : TcpX H × Option Panic :=
  match handlers.getLast? with
  | none => (tcpx, some (.noHandlers handlers.length))
  | some f =>
    if handlers.length > 1 && tcpx.Mux.isNone then (tcpx, some .nilMux)
    else
      let mux := muxOrNew tcpx
      let mux :=
        if handlers.length > 1 then mux.AddMessageIDSelfMiddleware messageID handlers.dropLast
        else mux
      let mux := mux.AddHandleFunc messageID f
      let messageIDAnchor : MessageIDAnchor :=
        { MessageID := messageID, AnchorIndex := mux.CurrentAnchorIndex }
      ({ tcpx with Mux := some (mux.AddMessageIDAnchor messageIDAnchor) }, none)

/-! ## Transport selection and listening -/

/-- Whether the characters `p` begin the characters `s`. -/
def beginsWith : List Char → List Char → Bool
  | [], _ => true
  | _ :: _, [] => false
  | a :: p, b :: s => a == b && beginsWith p s

/-- Modelled from the spec: the helper `In`, defined outside `tcpx.go`. It tells
whether `s` is one of the names of `arr`, where an entry ending in `%` (the
`ip%` of `ListenAndServe`, the spec's `ip*`) stands for every name that begins
with what precedes the `%`. -/
def In (s : String) (arr : List String) : Bool :=
  arr.any fun v =>
    if v.data.getLast? = some '%' then beginsWith v.data.dropLast s.data else decide (v = s)

/-- How a call of a serve function ends: it returns an error value (`none` is
nil), it panics, or it has bound its socket and serves without returning. -/
inductive Served where
  | returned (err : Option Error)
  | panicked (p : Panic)
  | servingStream
  | servingDatagram
  deriving DecidableEq, Repr

/-- Method `TcpX.ListenAndServeTCP`. `netListen` is `net.Listen` (the error it returns,
if any); `acceptPanic` is the panic raised in the accept loop itself (by
`OnConnect`), if any, which the deferred `recover` of the function catches. -/
def ListenAndServeTCP (netListen : String → String → Option Error)
    (acceptPanic : Option Panic) (network addr : String) : Served :=
  match netListen network addr with
  | some err => .returned (some err)
  | none =>
    match acceptPanic with
    | some _ => .returned none
    | none => .servingStream

/-- Method `TcpX.ListenAndServeUDP`. `netListenPacket` is `net.ListenPacket` (the error
it returns, if any). The function has no deferred `recover`. -/
def ListenAndServeUDP (netListenPacket : String → String → Option Error)
    (network addr : String) (maxBufferSize : List Nat) : Served :=
  if maxBufferSize.length > 1 then .panicked (.maxBufferSize maxBufferSize.length)
  else
    match netListenPacket network addr with
    | some err => .panicked (.listenPacket err)
    | none => .servingDatagram

/-- Method `TcpX.ListenAndServe`. -/
def ListenAndServe (netListen netListenPacket : String → String → Option Error)
    (acceptPanic : Option Panic) (network addr : String) : Served :=
  if In network ["tcp", "tcp4", "tcp6", "unix", "unixpacket"] then
    ListenAndServeTCP netListen acceptPanic network addr
  else if In network ["udp", "udp4", "udp6", "unixgram", "ip%"] then
    ListenAndServeUDP netListenPacket network addr []
  else .returned (some (.unsupportedNetwork network))

/-! ## Chain assembly -/

/-- What the per-block closure of the serve loops did. -/
inductive Dispatched (H E : Type) where
  | ran (chain : List H)
  | notRun
  | idError (e : E)
  | handlerNotFound (messageID : Int)
  | nilMux
  deriving DecidableEq, Repr

/-- The closure `func(ctx *Context, tcpx *TcpX)` that both serve loops run on a
decoded block (the stream loop inline, the datagram loop in a task of its
own): it appends the chain to `ctx.handlers`, then calls `ctx.Next()` and
`ctx.Reset()`. `MessageIDOf` is the codec's id parser; `range` is the order in
which the runtime visits the entries of a map. -/
def dispatch {B E : Type} (MessageIDOf : B → Except E Int)
    (range : List (String × MiddlewareAnchor H) → List (String × MiddlewareAnchor H))
    (tcpx : TcpX H) (handlers : List H) (stream : B) : Dispatched H E :=
  match tcpx.OnMessage with
  | some onMessage =>
    match tcpx.Mux with
    | none => .nilMux
    | some mux =>
      let handlers := handlers ++ mux.GlobalMiddlewares
      let handlers :=
        (range mux.MiddlewareAnchorMap).foldl (fun hs kv => hs ++ [kv.2.Middleware]) handlers
      let handlers := handlers ++ [onMessage]
      if handlers.length > 0 then .ran handlers else .notRun
  | none =>
    match MessageIDOf stream with
    | .error e => .idError e
    | .ok messageID =>
      match tcpx.Mux with
      | none => .nilMux
      | some mux =>
        match mapGet mux.Handlers messageID with
        | none => .handlerNotFound messageID
        | some handler =>
          let handlers := handlers ++ mux.GlobalMiddlewares
          let messageIDAnchorIndex := mux.AnchorIndexOfMessageID messageID
          let handlers :=
            (range mux.MiddlewareAnchorMap).foldl
              (fun hs kv =>
                if messageIDAnchorIndex > kv.2.AnchorIndex
                    && messageIDAnchorIndex ≤ kv.2.ExpireAnchorIndex then
                  hs ++ [kv.2.Middleware]
                else hs)
              handlers
          let handlers := handlers ++ (mapGet mux.MessageIDSelfMiddleware messageID).getD []
          let handlers := handlers ++ [handler]
          if handlers.length > 0 then .ran handlers else .notRun

/-! ## Tasks that run the chain -/

/-- What a handler does when it is called: it calls `ctx.Next()` and returns,
it returns without calling it, or it panics. -/
inductive Behaviour where
  | callsNext
  | returns
  | panics (msg : String)
  deriving DecidableEq, Repr

/-- Modelled from the spec: `Context.Next`, defined outside `tcpx.go`: it
"executes `handlers[offset]`", and "a nested `next()` call inside the current
handler continues the chain". The result is the panic that leaves the call, if
any. -/
def Next (behave : H → Behaviour) : List H → Option Panic
  | [] => none
  | h :: rest =>
    match behave h with
    | .panics msg => some (.user msg)
    | .returns => none
    | .callsNext => Next behave rest

/-- What a task did, in order. -/
inductive Event (H : Type) where
  | ran (chain : List H)
  | closeHook
  | connClosed
  | recovered (p : Panic)
  deriving DecidableEq, Repr

/-- How a task ends: it returns, or a panic leaves it, which terminates the process. -/
inductive TaskEnd where
  | finished
  | crashed (p : Panic)
  deriving DecidableEq, Repr

/-- The read loop of a stream connection, on the results of the successive
`FirstBlockOf` calls: the chains run and the panic that leaves the loop, if
any. Every read error ends the loop; `ctx.Reset()` empties `ctx.handlers`
after each chain. -/
def readLoop {B E : Type} (behave : H → Behaviour) (MessageIDOf : B → Except E Int)
    (range : List (String × MiddlewareAnchor H) → List (String × MiddlewareAnchor H))
    (tcpx : TcpX H) : List (Except E B) → List (Event H) × Option Panic
  | [] => ([], none)
  | .error _ :: _ => ([], none)
  | .ok stream :: rest =>
    match dispatch MessageIDOf range tcpx [] stream with
    | .ran chain =>
      match Next behave chain with
      | some p => ([.ran chain], some p)
      | none =>
        let r := readLoop behave MessageIDOf range tcpx rest
        (.ran chain :: r.1, r.2)
    | .nilMux => ([], some .nilMux)
    | _ => readLoop behave MessageIDOf range tcpx rest

/-- The task of a stream connection (`go func(ctx *Context, tcpx *TcpX)` of
`ListenAndServeTCP`): the read loop, then the deferred calls, last registered
first: `OnClose` when set, `ctx.Conn.Close()`, and the `recover`. -/
def connTask {B E : Type} (behave : H → Behaviour) (MessageIDOf : B → Except E Int)
    (range : List (String × MiddlewareAnchor H) → List (String × MiddlewareAnchor H))
    (tcpx : TcpX H) (blocks : List (Except E B)) : List (Event H) × TaskEnd :=
  let r := readLoop behave MessageIDOf range tcpx blocks
  let afterHook : List (Event H) × Option Panic :=
    match tcpx.OnClose with
    | none => ([], r.2)
    | some onClose =>
      match behave onClose with
      | .panics msg => ([.closeHook], some (.user msg))
      | _ => ([.closeHook], r.2)
  match afterHook.2 with
  | none => (r.1 ++ afterHook.1 ++ [.connClosed], .finished)
  | some p => (r.1 ++ afterHook.1 ++ [.connClosed, .recovered p], .finished)

/-- The task of one datagram (`go func(ctx *Context, tcpx *TcpX)` of
`ListenAndServeUDP`): the closure alone, with no deferred call. -/
def datagramTask {B E : Type} (behave : H → Behaviour) (MessageIDOf : B → Except E Int)
    (range : List (String × MiddlewareAnchor H) → List (String × MiddlewareAnchor H))
    (tcpx : TcpX H) (stream : B) : List (Event H) × TaskEnd :=
  match dispatch MessageIDOf range tcpx [] stream with
  | .ran chain =>
    match Next behave chain with
    | some p => ([.ran chain], .crashed p)
    | none => ([.ran chain], .finished)
  | .nilMux => ([], .crashed .nilMux)
  | _ => ([], .finished)

/-- The reader of the datagram server (`go func(conn net.PacketConn, tcpx *TcpX)`),
on the results of the successive `ReadAllUDP` calls: the contexts (remote
address and decoded block) handed to a datagram task, in order. A read error
and a block that `FirstBlockOfBytes` rejects both end the loop. -/
def udpReader {Buf A B E : Type} (FirstBlockOfBytes : Buf → Except E B) :
    List (Except E (Buf × A)) → List (A × B)
  | [] => []
  | .error _ :: _ => []
  | .ok (buffer, addr) :: rest =>
    match FirstBlockOfBytes buffer with
    | .error _ => []
    | .ok stream => (addr, stream) :: udpReader FirstBlockOfBytes rest

/-! ## Sequences of registration calls -/

/-- A registration call; `Use` is given as its key/middleware pairs. -/
inductive Call (H : Type) where
  | Use (pairs : List (String × H))
  | UnUse (keys : List String)
  | AddHandler (messageID : Int) (handlers : List H)
  deriving DecidableEq, Repr

/-- Arguments of `Use` for a list of pairs: key, middleware, key, middleware... -/
def useArgs : List (String × H) → List (Arg H)
  | [] => []
  | (k, f) :: ps => .str k :: .fn f :: useArgs ps

/-- Perform one call. -/
def Call.apply (NOT_EXPIRE : Nat) (tcpx : TcpX H) : Call H → TcpX H × Option Panic
  | .Use pairs => Tcpx.Use NOT_EXPIRE tcpx (useArgs pairs)
  | .UnUse keys => Tcpx.UnUse tcpx keys
  | .AddHandler messageID handlers => Tcpx.AddHandler tcpx messageID handlers

/-- Perform the calls in order, up to the first one that panics. -/
def runCalls (NOT_EXPIRE : Nat) : TcpX H → List (Call H) → TcpX H × Option Panic
  | tcpx, [] => (tcpx, none)
  | tcpx, c :: cs =>
    match c.apply NOT_EXPIRE tcpx with
    | (tcpx', none) => runCalls NOT_EXPIRE tcpx' cs
    | (tcpx', some p) => (tcpx', some p)

/-! ## Vocabulary for sequences of calls -/

/-- Whether the call passes key `K` to `Use`. -/
def Call.uses (K : String) : Call H → Bool
  | .Use pairs => decide (K ∈ pairs.map Prod.fst)
  | _ => false

/-- Whether the call passes key `K` to `UnUse`. -/
def Call.unUses (K : String) : Call H → Bool
  | .UnUse keys => decide (K ∈ keys)
  | _ => false

/-- Whether the call is `AddHandler` for message id `m`. -/
def Call.adds (m : Int) : Call H → Bool
  | .AddHandler messageID _ => decide (messageID = m)
  | _ => false

/-- Whether key `K` is registered and not retired after the calls, given whether
it was before them: a call that passes `K` to `Use` registers it, a call that
passes `K` to `UnUse` retires it. -/
def activeAfter (K : String) : Bool → List (Call H) → Bool
  | s, [] => s
  | s, c :: cs =>
    activeAfter K (if c.uses K then true else if c.unUses K then false else s) cs

/-! ## Single registrations -/

/-- A single registration: one pair of `Use`, one key of `UnUse`, one `AddHandler`. -/
inductive Step (H : Type) where
  | use (k : String) (f : H)
  | unUse (k : String)
  | add (messageID : Int) (handlers : List H)
  deriving DecidableEq, Repr

/-- Effect of a single registration on the router; `none` when it panics. -/
def Step.apply (NOT_EXPIRE : Nat) (mux : Mux H) : Step H → Option (Mux H)
  | .use k f =>
    some (mux.AddMiddlewareAnchor
      { Middleware := f, MiddlewareKey := k, AnchorIndex := mux.CurrentAnchorIndex,
        ExpireAnchorIndex := NOT_EXPIRE })
  | .unUse k =>
    match mapGet mux.MiddlewareAnchorMap k with
    | none => none
    | some a =>
      some (mux.ReplaceMiddlewareAnchor { a with ExpireAnchorIndex := mux.CurrentAnchorIndex })
  | .add messageID handlers =>
    match handlers.getLast? with
    | none => none
    | some f =>
      some (((if handlers.length > 1 then
                mux.AddMessageIDSelfMiddleware messageID handlers.dropLast
              else mux).AddHandleFunc messageID f).AddMessageIDAnchor
            ⟨messageID, mux.AnchorIndex + 1⟩)

/-- Effect of single registrations in order; `none` when one panics. -/
def runSteps (NOT_EXPIRE : Nat) : Mux H → List (Step H) → Option (Mux H)
  | mux, [] => some mux
  | mux, s :: ss =>
    match s.apply NOT_EXPIRE mux with
    | none => none
    | some mux' => runSteps NOT_EXPIRE mux' ss

/-- Single registrations a call performs. -/
def Call.steps : Call H → List (Step H)
  | .Use pairs => pairs.map fun p => .use p.1 p.2
  | .UnUse keys => keys.map .unUse
  | .AddHandler messageID handlers => [.add messageID handlers]

/-- Single registrations a sequence of calls performs. -/
def stepsOf : List (Call H) → List (Step H)
  | [] => []
  | c :: cs => c.steps ++ stepsOf cs

/-- Whether the step registers key `K`. -/
def Step.isUse (K : String) : Step H → Bool
  | .use k _ => decide (k = K)
  | _ => false

/-- Whether the step retires key `K`. -/
def Step.isUnUse (K : String) : Step H → Bool
  | .unUse k => decide (k = K)
  | _ => false

/-- Whether the step registers message id `m`. -/
def Step.isAdd (m : Int) : Step H → Bool
  | .add messageID _ => decide (messageID = m)
  | _ => false

/-- Whether key `K` is registered and not retired after the single registrations. -/
def activeSteps (K : String) : Bool → List (Step H) → Bool
  | s, [] => s
  | s, st :: ss =>
    activeSteps K (if st.isUse K then true else if st.isUnUse K then false else s) ss

/-- Entries of the anchor map carry the key they are stored under. -/
def KeyOK (mux : Mux H) : Prop :=
  ∀ k a, mapGet mux.MiddlewareAnchorMap k = some a → a.MiddlewareKey = k

/-- Keys of the anchor map are distinct. -/
def KeysNodup (mux : Mux H) : Prop := (mux.MiddlewareAnchorMap.map Prod.fst).Nodup

/-! ## Example servers -/

/-- Value used for `NOT_EXPIRE` in the examples: the spec's "maximum value" of a `u64`. -/
def maxIndex : Nat := 18446744073709551615

/-- Identity codec of the examples: a block is its message id. -/
def idOfBlock (b : Int) : Except String Int := .ok b

/-- Calls of scenario B of the spec. -/
def scenarioBCalls : List (Call String) :=
  [.Use [("A", "mA")], .AddHandler 1 ["h1"], .Use [("B", "mB")], .AddHandler 2 ["h2"],
    .UnUse ["A"], .AddHandler 3 ["h3"]]

/-- Calls of the example in the comment of `UnUse`. -/
def unUseExampleCalls : List (Call String) :=
  [.Use [("middleware1", "Middleware1"), ("middleware2", "Middleware2")],
    .AddHandler 1 ["SayHello"], .UnUse ["middleware2"], .AddHandler 3 ["SayGoodBye"]]

/-- Scenario B of the spec with `NOT_EXPIRE` at the maximum value. -/
def scenarioB : TcpX String := (runCalls maxIndex NewTcpX scenarioBCalls).1

/-- Router that scenario B leaves, for a given `NOT_EXPIRE`. -/
def scenarioBMux (NE : Nat) : Mux String :=
  { Handlers := [(1, "h1"), (2, "h2"), (3, "h3")]
    GlobalMiddlewares := []
    MiddlewareAnchorMap := [("A", ⟨"A", "mA", 0, 4⟩), ("B", ⟨"B", "mB", 2, NE⟩)]
    MessageIDSelfMiddleware := []
    MessageIDAnchorMap := [(1, ⟨1, 2⟩), (2, ⟨2, 4⟩), (3, ⟨3, 6⟩)]
    AnchorIndex := 6 }

/-- Router that the example of the comment of `UnUse` leaves, for a given `NOT_EXPIRE`. -/
def unUseExampleMux (NE : Nat) : Mux String :=
  { Handlers := [(1, "SayHello"), (3, "SayGoodBye")]
    GlobalMiddlewares := []
    MiddlewareAnchorMap :=
      [("middleware1", ⟨"middleware1", "Middleware1", 0, NE⟩),
        ("middleware2", ⟨"middleware2", "Middleware2", 1, 3⟩)]
    MessageIDSelfMiddleware := []
    MessageIDAnchorMap := [(1, ⟨1, 3⟩), (3, ⟨3, 5⟩)]
    AnchorIndex := 5 }

/-- Two anchored middlewares registered in the order `A`, `B`, then a handler. -/
def twoAnchors : TcpX String :=
  (runCalls maxIndex NewTcpX [.Use [("A", "mA"), ("B", "mB")], .AddHandler 1 ["h"]]).1

/-- Scenario B with `OnMessage` set. -/
def onMessageServer : TcpX String := { scenarioB with OnMessage := some "onMessage" }

/-- Key `A` retired twice, with a handler registered in between. -/
def unUseTwice : TcpX String :=
  (runCalls maxIndex NewTcpX
    [.Use [("A", "mA")], .UnUse ["A"], .AddHandler 1 ["h1"], .UnUse ["A"]]).1

/-- Key `A` registered again after a handler. -/
def useAgain : TcpX String :=
  (runCalls maxIndex NewTcpX
    [.Use [("A", "mA")], .AddHandler 1 ["h1"], .Use [("A", "mA2")]]).1

/-- Key `A` registered again after it was retired, then a handler. -/
def useAfterUnUse : TcpX String :=
  (runCalls maxIndex NewTcpX
    [.Use [("A", "mA")], .UnUse ["A"], .Use [("A", "mA")], .AddHandler 1 ["h1"]]).1

/-- Server whose handler for id 1 panics. -/
def panicServer : TcpX String := (AddHandler NewTcpX 1 ["boom"]).1

/-- Behaviour of the handlers of `panicServer`: `boom` panics, every other one calls `Next`. -/
def panicBehaviour (h : String) : Behaviour :=
  if h = "boom" then .panics "boom" else .callsNext

/-- Example datagram decoder: a buffer decodes to its length unless it is empty. -/
def decodeNonEmpty (buffer : List Nat) : Except String Nat :=
  if buffer.isEmpty then .error "short" else .ok buffer.length

/-- A socket layer on which every bind succeeds. -/
def bindSucceeds : String → String → Option Error := fun _ _ => none

/-! ## Lemmas on maps and on the chain -/

/-- A value found under a key is an entry of the map. -/
theorem mapGet_mem {K V : Type} [DecidableEq K] (m : List (K × V)) (k : K) (v : V)
    (h : mapGet m k = some v) : (k, v) ∈ m := by
  induction m with
  | nil => simp [mapGet] at h
  | cons kv t ih =>
    obtain ⟨k', v'⟩ := kv
    by_cases hk : k' = k
    · simp [mapGet, hk] at h
      simp [hk, h]
    · simp [mapGet, hk] at h
      exact List.mem_cons_of_mem _ (ih h)

/-- Reading the key just assigned. -/
theorem mapGet_mapSet_self {K V : Type} [DecidableEq K] (m : List (K × V)) (k : K) (v : V) :
    mapGet (mapSet m k v) k = some v := by
  induction m with
  | nil => simp [mapSet, mapGet]
  | cons kv t ih =>
    obtain ⟨k', v'⟩ := kv
    by_cases hk : k' = k
    · simp [mapSet, mapGet, hk]
    · simp [mapSet, mapGet, hk, ih]

/-- Reading another key than the one just assigned. -/
theorem mapGet_mapSet_ne {K V : Type} [DecidableEq K] (m : List (K × V)) (k k2 : K) (v : V)
    (hne : k ≠ k2) : mapGet (mapSet m k v) k2 = mapGet m k2 := by
  induction m with
  | nil => simp [mapSet, mapGet, hne]
  | cons kv t ih =>
    obtain ⟨k', v'⟩ := kv
    by_cases hk : k' = k
    · subst hk
      simp [mapSet, mapGet, hne]
    · by_cases hk2 : k' = k2
      · subst hk2
        simp [mapSet, mapGet, hk]
      · simp [mapSet, mapGet, hk, hk2, ih]

/-- Reading after an assignment. -/
theorem mapGet_mapSet {K V : Type} [DecidableEq K] (m : List (K × V)) (k k2 : K) (v : V) :
    mapGet (mapSet m k v) k2 = if k = k2 then some v else mapGet m k2 := by
  by_cases h : k = k2
  · subst h; simp [mapGet_mapSet_self]
  · simp [h, mapGet_mapSet_ne m k k2 v h]

/-- Keys after an assignment: unchanged for an existing key, one more otherwise. -/
theorem mapSet_keys {K V : Type} [DecidableEq K] (m : List (K × V)) (k : K) (v : V) :
    (mapSet m k v).map Prod.fst
      = if k ∈ m.map Prod.fst then m.map Prod.fst else m.map Prod.fst ++ [k] := by
  induction m with
  | nil => simp [mapSet]
  | cons kv t ih =>
    obtain ⟨k', v'⟩ := kv
    by_cases hk : k' = k
    · subst hk; simp [mapSet]
    · have hk2 : ¬ k = k' := fun h => hk h.symm
      by_cases hin : k ∈ t.map Prod.fst
      · simp only [mapSet, hk, if_false, List.map_cons, ih, hin, if_true, List.mem_cons,
          or_true]
      · simp only [mapSet, hk, if_false, List.map_cons, ih, hin, List.mem_cons, hk2,
          or_self, List.cons_append]

/-- Assignment keeps the keys distinct. -/
theorem mapSet_nodup {K V : Type} [DecidableEq K] (m : List (K × V)) (k : K) (v : V)
    (h : (m.map Prod.fst).Nodup) : ((mapSet m k v).map Prod.fst).Nodup := by
  rw [mapSet_keys]
  by_cases hin : k ∈ m.map Prod.fst
  · simp only [hin, if_true]; exact h
  · simp only [hin, if_false]
    exact List.Nodup.append h (List.nodup_singleton k) (by simpa using hin)

/-- With distinct keys, every entry is found under its key. -/
theorem mapGet_of_mem {K V : Type} [DecidableEq K] (m : List (K × V)) (k : K) (v : V)
    (hn : (m.map Prod.fst).Nodup) (h : (k, v) ∈ m) : mapGet m k = some v := by
  induction m with
  | nil => simp at h
  | cons kv t ih =>
    obtain ⟨k', v'⟩ := kv
    simp only [List.map_cons, List.nodup_cons] at hn
    rcases List.mem_cons.mp h with heq | hmem
    · simp only [Prod.mk.injEq] at heq
      simp [mapGet, heq.1, heq.2]
    · have hne : k' ≠ k := by
        intro hkk
        apply hn.1
        rw [hkk]
        exact List.mem_map.mpr ⟨(k, v), hmem, rfl⟩
      simp [mapGet, hne, ih hn.2 hmem]

/-- A loop that appends one element per entry appends the mapped list. -/
theorem foldl_append_map {α β : Type} (f : α → β) (l : List α) (init : List β) :
    l.foldl (fun hs a => hs ++ [f a]) init = init ++ l.map f := by
  induction l generalizing init with
  | nil => simp
  | cons a t ih => simp [List.foldl_cons, ih]

/-- A loop that appends under a test appends the mapped selection. -/
theorem foldl_append_filter {α β : Type} (p : α → Bool) (f : α → β) (l : List α)
    (init : List β) :
    l.foldl (fun hs a => if p a then hs ++ [f a] else hs) init
      = init ++ (l.filter p).map f := by
  induction l generalizing init with
  | nil => simp
  | cons a t ih =>
    by_cases h : p a = true
    · simp [List.foldl_cons, ih, h]
    · simp [List.foldl_cons, ih, h]

/-- Chain the closure builds in mux-routing mode, for a message id that has a handler. -/
theorem dispatch_mux_mode {B E : Type} (MessageIDOf : B → Except E Int)
    (range : List (String × MiddlewareAnchor H) → List (String × MiddlewareAnchor H))
    (tcpx : TcpX H) (mux : Mux H) (init : List H) (stream : B) (messageID : Int) (handler : H)
    (hmode : tcpx.OnMessage = none) (hmux : tcpx.Mux = some mux)
    (hid : MessageIDOf stream = .ok messageID)
    (hhandler : mapGet mux.Handlers messageID = some handler) :
    dispatch MessageIDOf range tcpx init stream
      = .ran (init ++ mux.GlobalMiddlewares
          ++ ((mapValues (range mux.MiddlewareAnchorMap)).filter
                (fun a => decide (a.AnchorIndex < mux.AnchorIndexOfMessageID messageID)
                  && decide (mux.AnchorIndexOfMessageID messageID ≤ a.ExpireAnchorIndex))).map
              (fun a => a.Middleware)
          ++ (mapGet mux.MessageIDSelfMiddleware messageID).getD []
          ++ [handler]) := by
  unfold dispatch
  simp only [hmode, hmux, hid, hhandler]
  rw [foldl_append_filter (fun kv : String × MiddlewareAnchor H =>
        decide (mux.AnchorIndexOfMessageID messageID > kv.2.AnchorIndex)
          && decide (mux.AnchorIndexOfMessageID messageID ≤ kv.2.ExpireAnchorIndex))
      (fun kv => kv.2.Middleware)]
  simp [mapValues, List.filter_map, Function.comp_def]

/-- Chain the closure builds when `OnMessage` is set. -/
theorem dispatch_onMessage_mode {B E : Type} (MessageIDOf : B → Except E Int)
    (range : List (String × MiddlewareAnchor H) → List (String × MiddlewareAnchor H))
    (tcpx : TcpX H) (mux : Mux H) (init : List H) (stream : B) (onMessage : H)
    (hmode : tcpx.OnMessage = some onMessage) (hmux : tcpx.Mux = some mux) :
    dispatch MessageIDOf range tcpx init stream
      = .ran (init ++ mux.GlobalMiddlewares
          ++ (mapValues (range mux.MiddlewareAnchorMap)).map (fun a => a.Middleware)
          ++ [onMessage]) := by
  unfold dispatch
  simp only [hmode, hmux]
  rw [foldl_append_map (fun kv : String × MiddlewareAnchor H => kv.2.Middleware)]
  simp [mapValues, Function.comp_def]

/-- Result of `AddHandler` on a server with a router, for a non-empty handler list. -/
theorem AddHandler_eq (tcpx : TcpX H) (mux : Mux H) (messageID : Int) (hs : List H) (f : H)
    (hmux : tcpx.Mux = some mux) (hf : hs.getLast? = some f) :
    AddHandler tcpx messageID hs
      = ({ tcpx with
           Mux := some (((if hs.length > 1 then
                            mux.AddMessageIDSelfMiddleware messageID hs.dropLast
                          else mux).AddHandleFunc messageID f).AddMessageIDAnchor
                        ⟨messageID, mux.AnchorIndex + 1⟩) }, none) := by
  simp only [AddHandler, hf, hmux, muxOrNew]
  by_cases hlen : hs.length > 1
  · simp [hlen, Mux.CurrentAnchorIndex, Mux.AddHandleFunc, Mux.AddMessageIDSelfMiddleware]
  · simp [hlen, Mux.CurrentAnchorIndex, Mux.AddHandleFunc]

/-- Characterisation of `beginsWith`. -/
theorem beginsWith_iff (p s : List Char) : beginsWith p s = true ↔ ∃ r, s = p ++ r := by
  induction p generalizing s with
  | nil => simp [beginsWith]
  | cons a p ih =>
    cases s with
    | nil => simp [beginsWith]
    | cons b s =>
      simp only [beginsWith, Bool.and_eq_true, beq_iff_eq, ih, List.cons_append,
        List.cons.injEq]
      constructor
      · rintro ⟨rfl, r, rfl⟩
        exact ⟨r, rfl, rfl⟩
      · rintro ⟨r, rfl, rfl⟩
        exact ⟨rfl, r, rfl⟩

/-- Names `In` accepts for the stream list. -/
theorem In_stream_names (network : String) :
    In network ["tcp", "tcp4", "tcp6", "unix", "unixpacket"] = true
      ↔ network ∈ ["tcp", "tcp4", "tcp6", "unix", "unixpacket"] := by
  have h1 : ("tcp".data.getLast? = some '%') = False := by decide
  have h2 : ("tcp4".data.getLast? = some '%') = False := by decide
  have h3 : ("tcp6".data.getLast? = some '%') = False := by decide
  have h4 : ("unix".data.getLast? = some '%') = False := by decide
  have h5 : ("unixpacket".data.getLast? = some '%') = False := by decide
  simp only [In, List.any_cons, List.any_nil, h1, h2, h3, h4, h5, if_false, Bool.or_false,
    Bool.or_eq_true, decide_eq_true_eq, List.mem_cons, List.mem_singleton, List.mem_nil_iff,
    or_false]
  constructor
  · rintro (h | h | h | h | h) <;> simp [← h]
  · rintro (h | h | h | h | h) <;> simp [h]

/-- Names `In` accepts for the datagram list. -/
theorem In_datagram_names (network : String) :
    In network ["udp", "udp4", "udp6", "unixgram", "ip%"] = true
      ↔ network ∈ ["udp", "udp4", "udp6", "unixgram"] ∨ ∃ rest : String, network = "ip" ++ rest := by
  have h1 : ("udp".data.getLast? = some '%') = False := by decide
  have h2 : ("udp4".data.getLast? = some '%') = False := by decide
  have h3 : ("udp6".data.getLast? = some '%') = False := by decide
  have h4 : ("unixgram".data.getLast? = some '%') = False := by decide
  have h5 : ("ip%".data.getLast? = some '%') = True := by decide
  have h6 : "ip%".data.dropLast = "ip".data := by decide
  simp only [In, List.any_cons, List.any_nil, h1, h2, h3, h4, h5, h6, if_false, if_true,
    Bool.or_false, Bool.or_eq_true, decide_eq_true_eq, List.mem_cons, List.mem_singleton,
    beginsWith_iff, List.mem_nil_iff, or_false]
  constructor
  · rintro (h | h | h | h | ⟨r, hr⟩)
    · simp [← h]
    · simp [← h]
    · simp [← h]
    · simp [← h]
    · right
      refine ⟨String.mk r, ?_⟩
      apply String.ext
      simpa using hr
  · rintro ((h | h | h | h) | ⟨rest, hr⟩)
    · simp [h]
    · simp [h]
    · simp [h]
    · simp [h]
    · right; right; right; right
      exact ⟨rest.data, by rw [hr]; simp⟩

/-- Stream names are served by `ListenAndServeTCP`. -/
theorem ListenAndServe_stream (netListen netListenPacket : String → String → Option Error)
    (acceptPanic : Option Panic) (network addr : String)
    (h : network ∈ ["tcp", "tcp4", "tcp6", "unix", "unixpacket"]) :
    ListenAndServe netListen netListenPacket acceptPanic network addr
      = ListenAndServeTCP netListen acceptPanic network addr := by
  simp only [ListenAndServe, (In_stream_names network).mpr h, if_true]

/-- Datagram names and the names that begin with `ip` are served by `ListenAndServeUDP`. -/
theorem ListenAndServe_datagram (netListen netListenPacket : String → String → Option Error)
    (acceptPanic : Option Panic) (network addr : String)
    (h : network ∈ ["udp", "udp4", "udp6", "unixgram"] ∨ ∃ rest : String, network = "ip" ++ rest) :
    ListenAndServe netListen netListenPacket acceptPanic network addr
      = ListenAndServeUDP netListenPacket network addr [] := by
  have hs : In network ["tcp", "tcp4", "tcp6", "unix", "unixpacket"] = false := by
    rw [Bool.eq_false_iff, Ne, In_stream_names]
    rcases h with h | ⟨rest, rfl⟩
    · simp only [List.mem_cons, List.mem_singleton, List.mem_nil_iff, or_false] at h ⊢
      rcases h with h | h | h | h <;> subst h <;> decide
    · simp only [List.mem_cons, List.mem_singleton, List.mem_nil_iff, or_false]
      rintro (h | h | h | h | h) <;>
        · have := congrArg String.data h
          simp at this
  simp only [ListenAndServe, hs, (In_datagram_names network).mpr h, if_true]
  simp

/-- Every other name is refused before any socket is opened. -/
theorem ListenAndServe_other (netListen netListenPacket : String → String → Option Error)
    (acceptPanic : Option Panic) (network addr : String)
    (h1 : network ∉ ["tcp", "tcp4", "tcp6", "unix", "unixpacket"])
    (h2 : network ∉ ["udp", "udp4", "udp6", "unixgram"])
    (h3 : ¬ ∃ rest : String, network = "ip" ++ rest) :
    ListenAndServe netListen netListenPacket acceptPanic network addr
      = .returned (some (.unsupportedNetwork network)) := by
  have hs : In network ["tcp", "tcp4", "tcp6", "unix", "unixpacket"] = false := by
    rw [Bool.eq_false_iff, Ne, In_stream_names]; exact h1
  have hd : In network ["udp", "udp4", "udp6", "unixgram", "ip%"] = false := by
    rw [Bool.eq_false_iff, Ne, In_datagram_names]
    rintro (h | h)
    · exact h2 h
    · exact h3 h
  simp [ListenAndServe, hs, hd]

/-- A bind failure on the datagram path is turned into a panic, for every accepted name. -/
theorem datagram_bind_failure_panics
    (netListen netListenPacket : String → String → Option Error)
    (acceptPanic : Option Panic) (network addr : String) (err : Error)
    (h : network ∈ ["udp", "udp4", "udp6", "unixgram"] ∨ ∃ rest : String, network = "ip" ++ rest)
    (hfail : netListenPacket network addr = some err) :
    ListenAndServe netListen netListenPacket acceptPanic network addr
      = .panicked (.listenPacket err) := by
  rw [ListenAndServe_datagram netListen netListenPacket acceptPanic network addr h]
  simp [ListenAndServeUDP, hfail]

/-- A bind failure on the stream path is returned, for every accepted name. -/
theorem stream_bind_failure_returned
    (netListen netListenPacket : String → String → Option Error)
    (acceptPanic : Option Panic) (network addr : String) (err : Error)
    (h : network ∈ ["tcp", "tcp4", "tcp6", "unix", "unixpacket"])
    (hfail : netListen network addr = some err) :
    ListenAndServe netListen netListenPacket acceptPanic network addr
      = .returned (some err) := by
  rw [ListenAndServe_stream netListen netListenPacket acceptPanic network addr h]
  simp [ListenAndServeTCP, hfail]

/-- A panic of a handler that is reached leaves `Next`. -/
theorem Next_panics (behave : H → Behaviour) (pre post : List H) (h : H) (msg : String)
    (hpre : ∀ x ∈ pre, behave x = .callsNext) (hh : behave h = .panics msg) :
    Next behave (pre ++ h :: post) = some (.user msg) := by
  induction pre with
  | nil => simp [Next, hh]
  | cons x t ih =>
    have hx := hpre x (List.mem_cons_self _ _)
    simp only [List.cons_append, Next, hx]
    exact ih fun y hy => hpre y (List.mem_cons_of_mem _ hy)

/-- The task of a stream connection always returns, and closes the connection. -/
theorem connTask_finishes {B E : Type} (behave : H → Behaviour) (MessageIDOf : B → Except E Int)
    (range : List (String × MiddlewareAnchor H) → List (String × MiddlewareAnchor H))
    (tcpx : TcpX H) (blocks : List (Except E B)) :
    (connTask behave MessageIDOf range tcpx blocks).2 = .finished ∧
      Event.connClosed ∈ (connTask behave MessageIDOf range tcpx blocks).1 := by
  unfold connTask
  dsimp only
  split <;> simp

/-- A panic that leaves the chain leaves the task of a datagram. -/
theorem datagramTask_crashes {B E : Type} (behave : H → Behaviour)
    (MessageIDOf : B → Except E Int)
    (range : List (String × MiddlewareAnchor H) → List (String × MiddlewareAnchor H))
    (tcpx : TcpX H) (stream : B) (chain : List H) (p : Panic)
    (hd : dispatch MessageIDOf range tcpx [] stream = .ran chain)
    (hp : Next behave chain = some p) :
    datagramTask behave MessageIDOf range tcpx stream = ([.ran chain], .crashed p) := by
  simp [datagramTask, hd, hp]

/-- Global middlewares are stored in the order of their registration. -/
theorem UseGlobal_appends (tcpx : TcpX H) (mids : List H) :
    (muxOrNew (UseGlobal tcpx mids)).GlobalMiddlewares
      = (muxOrNew tcpx).GlobalMiddlewares ++ mids := by
  simp [UseGlobal, muxOrNew, Mux.AddGlobalMiddleware]

/-! ## Lemmas on single registrations -/

/-- A run over a concatenation is the two runs in sequence. -/
theorem runSteps_append (NE : Nat) (mux : Mux H) (s1 s2 : List (Step H)) :
    runSteps NE mux (s1 ++ s2) = (runSteps NE mux s1).bind fun m => runSteps NE m s2 := by
  induction s1 generalizing mux with
  | nil => simp [runSteps]
  | cons s t ih =>
    simp only [List.cons_append, runSteps]
    cases h : s.apply NE mux with
    | none => simp
    | some m => simp [ih]

/-- Every single registration increments the counter by one. -/
theorem step_counter (NE : Nat) (mux mux' : Mux H) (s : Step H)
    (h : s.apply NE mux = some mux') : mux'.AnchorIndex = mux.AnchorIndex + 1 := by
  cases s with
  | use k f =>
    simp [Step.apply, Mux.AddMiddlewareAnchor] at h
    subst h; rfl
  | unUse k =>
    simp only [Step.apply] at h
    cases hk : mapGet mux.MiddlewareAnchorMap k with
    | none => simp [hk] at h
    | some a =>
      simp [hk, Mux.ReplaceMiddlewareAnchor] at h
      subst h; rfl
  | add m hs =>
    simp only [Step.apply] at h
    cases hf : hs.getLast? with
    | none => simp [hf] at h
    | some f =>
      simp [hf] at h
      subst h
      by_cases hl : 1 < hs.length <;>
        simp [hl, Mux.AddMessageIDAnchor, Mux.AddHandleFunc, Mux.AddMessageIDSelfMiddleware]

/-- A run increments the counter by its length. -/
theorem runSteps_counter (NE : Nat) (mux mux' : Mux H) (ss : List (Step H))
    (h : runSteps NE mux ss = some mux') : mux'.AnchorIndex = mux.AnchorIndex + ss.length := by
  induction ss generalizing mux with
  | nil => simp [runSteps] at h; subst h; simp
  | cons s t ih =>
    simp only [runSteps] at h
    cases hs : s.apply NE mux with
    | none => simp [hs] at h
    | some m =>
      simp only [hs] at h
      rw [ih m h, step_counter NE mux m s hs]
      simp; omega

/-- Anchor map after registering a pair. -/
theorem apply_use (NE : Nat) (mux mux' : Mux H) (k : String) (f : H)
    (h : (Step.use k f).apply NE mux = some mux') :
    mux'.MiddlewareAnchorMap = mapSet mux.MiddlewareAnchorMap k ⟨k, f, mux.AnchorIndex, NE⟩
      ∧ mux'.MessageIDAnchorMap = mux.MessageIDAnchorMap
      ∧ mux'.Handlers = mux.Handlers
      ∧ mux'.MessageIDSelfMiddleware = mux.MessageIDSelfMiddleware
      ∧ mux'.GlobalMiddlewares = mux.GlobalMiddlewares := by
  simp [Step.apply, Mux.AddMiddlewareAnchor, Mux.CurrentAnchorIndex] at h
  subst h
  simp

/-- Anchor map after retiring a key. -/
theorem apply_unUse (NE : Nat) (mux mux' : Mux H) (k : String)
    (h : (Step.unUse k).apply NE mux = some mux') :
    ∃ a, mapGet mux.MiddlewareAnchorMap k = some a ∧
      mux'.MiddlewareAnchorMap
        = mapSet mux.MiddlewareAnchorMap a.MiddlewareKey
            { a with ExpireAnchorIndex := mux.AnchorIndex }
      ∧ mux'.MessageIDAnchorMap = mux.MessageIDAnchorMap
      ∧ mux'.Handlers = mux.Handlers
      ∧ mux'.MessageIDSelfMiddleware = mux.MessageIDSelfMiddleware
      ∧ mux'.GlobalMiddlewares = mux.GlobalMiddlewares := by
  simp only [Step.apply] at h
  cases hk : mapGet mux.MiddlewareAnchorMap k with
  | none => simp [hk] at h
  | some a =>
    simp [hk, Mux.ReplaceMiddlewareAnchor, Mux.CurrentAnchorIndex] at h
    subst h
    exact ⟨a, rfl, by simp⟩

/-- Router after registering a handler. -/
theorem apply_add (NE : Nat) (mux mux' : Mux H) (m : Int) (hs : List H)
    (h : (Step.add m hs).apply NE mux = some mux') :
    ∃ f, hs.getLast? = some f ∧
      mux'.MiddlewareAnchorMap = mux.MiddlewareAnchorMap
      ∧ mux'.MessageIDAnchorMap = mapSet mux.MessageIDAnchorMap m ⟨m, mux.AnchorIndex + 1⟩
      ∧ mux'.Handlers = mapSet mux.Handlers m f
      ∧ mux'.GlobalMiddlewares = mux.GlobalMiddlewares
      ∧ mux'.MessageIDSelfMiddleware
          = (if hs.length > 1 then
              mapSet mux.MessageIDSelfMiddleware m
                ((mapGet mux.MessageIDSelfMiddleware m).getD [] ++ hs.dropLast)
            else mux.MessageIDSelfMiddleware) := by
  simp only [Step.apply] at h
  cases hf : hs.getLast? with
  | none => simp [hf] at h
  | some f =>
    simp only [hf, Option.some.injEq] at h
    subst h
    refine ⟨f, rfl, ?_⟩
    by_cases hl : hs.length > 1 <;>
      simp [hl, Mux.AddMessageIDAnchor, Mux.AddHandleFunc, Mux.AddMessageIDSelfMiddleware]

/-- The entry of key `K` after registering `K`. -/
theorem step_get_use (NE : Nat) (mux mux' : Mux H) (K : String) (f : H)
    (h : (Step.use K f).apply NE mux = some mux') :
    mapGet mux'.MiddlewareAnchorMap K = some ⟨K, f, mux.AnchorIndex, NE⟩ := by
  rw [(apply_use NE mux mux' K f h).1, mapGet_mapSet_self]

/-- The entry of key `K` after retiring `K`. -/
theorem step_get_unUse (NE : Nat) (mux mux' : Mux H) (K : String) (hk : KeyOK mux)
    (h : (Step.unUse K).apply NE mux = some mux') :
    ∃ a, mapGet mux.MiddlewareAnchorMap K = some a ∧
      mapGet mux'.MiddlewareAnchorMap K = some { a with ExpireAnchorIndex := mux.AnchorIndex } := by
  obtain ⟨a, ha, hmap, _⟩ := apply_unUse NE mux mux' K h
  refine ⟨a, ha, ?_⟩
  rw [hmap, hk K a ha, mapGet_mapSet_self]

/-- A step that neither registers nor retires `K` leaves the entry of `K` alone. -/
theorem step_get_other (NE : Nat) (mux mux' : Mux H) (K : String) (s : Step H) (hk : KeyOK mux)
    (h : s.apply NE mux = some mux') (h1 : s.isUse K = false) (h2 : s.isUnUse K = false) :
    mapGet mux'.MiddlewareAnchorMap K = mapGet mux.MiddlewareAnchorMap K := by
  cases s with
  | use k f =>
    have hne : k ≠ K := by simpa [Step.isUse] using h1
    rw [(apply_use NE mux mux' k f h).1, mapGet_mapSet_ne _ _ _ _ hne]
  | unUse k =>
    have hne : k ≠ K := by simpa [Step.isUnUse] using h2
    obtain ⟨a, ha, hmap, _⟩ := apply_unUse NE mux mux' k h
    rw [hmap, hk k a ha, mapGet_mapSet_ne _ _ _ _ hne]
  | add m hs =>
    obtain ⟨f, _, hmap, _⟩ := apply_add NE mux mux' m hs h
    rw [hmap]

/-- A step keeps entries under their own key. -/
theorem step_keyOK (NE : Nat) (mux mux' : Mux H) (s : Step H) (hk : KeyOK mux)
    (h : s.apply NE mux = some mux') : KeyOK mux' := by
  intro k2 a2 h2
  cases s with
  | use k f =>
    rw [(apply_use NE mux mux' k f h).1, mapGet_mapSet] at h2
    by_cases hkk : k = k2
    · simp [hkk] at h2; subst h2; rfl
    · simp [hkk] at h2; exact hk k2 a2 h2
  | unUse k =>
    obtain ⟨a, ha, hmap, _⟩ := apply_unUse NE mux mux' k h
    rw [hmap, hk k a ha, mapGet_mapSet] at h2
    by_cases hkk : k = k2
    · simp [hkk] at h2; subst h2; rfl
    · simp [hkk] at h2; exact hk k2 a2 h2
  | add m hs =>
    obtain ⟨f, _, hmap, _⟩ := apply_add NE mux mux' m hs h
    rw [hmap] at h2
    exact hk k2 a2 h2

/-- A property of the router that every admissible step keeps is kept by a run. -/
theorem runSteps_preserves (NE : Nat) (C : Step H → Prop) (Q : Mux H → Prop)
    (hstep : ∀ (mux mux' : Mux H) (s : Step H), C s → KeyOK mux → Q mux →
      s.apply NE mux = some mux' → Q mux')
    (ss : List (Step H)) (mux mux' : Mux H) (hrun : runSteps NE mux ss = some mux')
    (hk : KeyOK mux) (hC : ∀ s ∈ ss, C s) (hQ : Q mux) : Q mux' ∧ KeyOK mux' := by
  induction ss generalizing mux with
  | nil =>
    simp [runSteps] at hrun
    subst hrun
    exact ⟨hQ, hk⟩
  | cons s t ih =>
    simp only [runSteps] at hrun
    cases hs : s.apply NE mux with
    | none => simp [hs] at hrun
    | some m =>
      simp only [hs] at hrun
      exact ih m hrun (step_keyOK NE mux m s hk hs)
        (fun x hx => hC x (List.mem_cons_of_mem _ hx))
        (hstep mux m s (hC s (List.mem_cons_self _ _)) hk hQ hs)

/-- Case split on what a step does to key `K`. -/
theorem step_cases (NE : Nat) (K : String) (mux mux' : Mux H) (s : Step H) (hk : KeyOK mux)
    (h : s.apply NE mux = some mux') :
    (s.isUse K = true ∧ ∃ f, mapGet mux'.MiddlewareAnchorMap K
        = some ⟨K, f, mux.AnchorIndex, NE⟩) ∨
    (s.isUse K = false ∧ s.isUnUse K = true ∧ ∃ a, mapGet mux.MiddlewareAnchorMap K = some a ∧
      mapGet mux'.MiddlewareAnchorMap K
        = some { a with ExpireAnchorIndex := mux.AnchorIndex }) ∨
    (s.isUse K = false ∧ s.isUnUse K = false ∧
      mapGet mux'.MiddlewareAnchorMap K = mapGet mux.MiddlewareAnchorMap K) := by
  by_cases h1 : s.isUse K = true
  · cases s with
    | unUse k => simp [Step.isUse] at h1
    | add m hs => simp [Step.isUse] at h1
    | use k f =>
      have hkK : k = K := by simpa [Step.isUse] using h1
      subst hkK
      exact Or.inl ⟨h1, f, step_get_use NE mux mux' k f h⟩
  · have h1' : s.isUse K = false := by simpa using h1
    by_cases h2 : s.isUnUse K = true
    · cases s with
      | use k f => simp [Step.isUnUse] at h2
      | add m hs => simp [Step.isUnUse] at h2
      | unUse k =>
        have hkK : k = K := by simpa [Step.isUnUse] using h2
        subst hkK
        exact Or.inr (Or.inl ⟨h1', h2, step_get_unUse NE mux mux' k hk h⟩)
    · have h2' : s.isUnUse K = false := by simpa using h2
      exact Or.inr (Or.inr ⟨h1', h2', step_get_other NE mux mux' K s hk h h1' h2'⟩)

/-- A run without `Use(K)` and `UnUse(K)` leaves the entry of `K` alone. -/
theorem run_frame (NE : Nat) (K : String) (ss : List (Step H)) (mux mux' : Mux H)
    (hrun : runSteps NE mux ss = some mux') (hk : KeyOK mux)
    (h1 : ∀ s ∈ ss, s.isUse K = false) (h2 : ∀ s ∈ ss, s.isUnUse K = false) :
    mapGet mux'.MiddlewareAnchorMap K = mapGet mux.MiddlewareAnchorMap K :=
  (runSteps_preserves NE (fun s => s.isUse K = false ∧ s.isUnUse K = false)
    (fun m => mapGet m.MiddlewareAnchorMap K = mapGet mux.MiddlewareAnchorMap K)
    (fun m m' s hC hkm hQ hs => by
      beta_reduce at hC hQ ⊢
      rw [step_get_other NE m m' K s hkm hs hC.1 hC.2]; exact hQ)
    ss mux mux' hrun hk (fun s hs => ⟨h1 s hs, h2 s hs⟩) rfl).1

/-- A run keeps entries under their own key. -/
theorem run_keyOK (NE : Nat) (ss : List (Step H)) (mux mux' : Mux H)
    (hrun : runSteps NE mux ss = some mux') (hk : KeyOK mux) : KeyOK mux' :=
  (runSteps_preserves NE (fun _ => True) (fun _ => True) (fun _ _ _ _ _ _ _ => trivial)
    ss mux mux' hrun hk (fun _ _ => trivial) trivial).2

/-- A run without `Use(K)` leaves the anchor index of `K` alone, and creates no entry. -/
theorem run_anchor_frame (NE : Nat) (K : String) (ss : List (Step H)) (mux mux' : Mux H)
    (hrun : runSteps NE mux ss = some mux') (hk : KeyOK mux)
    (h1 : ∀ s ∈ ss, s.isUse K = false) :
    (mapGet mux'.MiddlewareAnchorMap K).map (fun a => a.AnchorIndex)
      = (mapGet mux.MiddlewareAnchorMap K).map (fun a => a.AnchorIndex) :=
  (runSteps_preserves NE (fun s => s.isUse K = false)
    (fun m => (mapGet m.MiddlewareAnchorMap K).map (fun a => a.AnchorIndex)
      = (mapGet mux.MiddlewareAnchorMap K).map (fun a => a.AnchorIndex))
    (fun m m' s hC hkm hQ hs => by
      beta_reduce at hC hQ ⊢
      by_cases hu : s.isUnUse K = true
      · cases s with
        | use k f => simp [Step.isUnUse] at hu
        | add m hs => simp [Step.isUnUse] at hu
        | unUse k =>
          have hkK : k = K := by simpa [Step.isUnUse] using hu
          subst hkK
          obtain ⟨a, ha, ha'⟩ := step_get_unUse NE m m' k hkm hs
          rw [← hQ, ha, ha']
          rfl
      · rw [step_get_other NE m m' K s hkm hs hC (by simpa using hu)]; exact hQ)
    ss mux mux' hrun hk h1 rfl).1

/-- A lower bound of the anchor index of `K` that the counter has reached is kept. -/
theorem run_anchor_ge (NE : Nat) (K : String) (c : Nat) (ss : List (Step H))
    (mux mux' : Mux H) (hrun : runSteps NE mux ss = some mux') (hk : KeyOK mux)
    (hc : c ≤ mux.AnchorIndex)
    (h0 : ∀ a, mapGet mux.MiddlewareAnchorMap K = some a → c ≤ a.AnchorIndex) :
    ∀ a, mapGet mux'.MiddlewareAnchorMap K = some a → c ≤ a.AnchorIndex :=
  (runSteps_preserves NE (fun _ => True)
    (fun m => c ≤ m.AnchorIndex ∧
      ∀ a, mapGet m.MiddlewareAnchorMap K = some a → c ≤ a.AnchorIndex)
    (fun m m' s _ hkm hQ hs => by
      beta_reduce at hQ ⊢
      have hcnt := step_counter NE m m' s hs
      refine ⟨by omega, ?_⟩
      intro a ha
      rcases step_cases NE K m m' s hkm hs with ⟨_, f, hf⟩ | ⟨_, _, b, hb, hb'⟩ | ⟨_, _, hsame⟩
      · rw [hf] at ha; simp at ha; subst ha; exact hQ.1
      · rw [hb'] at ha; simp at ha; subst ha; exact hQ.2 b hb
      · rw [hsame] at ha; exact hQ.2 a ha)
    ss mux mux' hrun hk (fun _ _ => trivial) ⟨hc, h0⟩).1.2

/-- A lower bound of the expiry index of `K` that the counter has reached is kept. -/
theorem run_expire_ge (NE : Nat) (K : String) (c : Nat) (ss : List (Step H))
    (mux mux' : Mux H) (hrun : runSteps NE mux ss = some mux') (hk : KeyOK mux)
    (hc : c ≤ mux.AnchorIndex) (hNE : c ≤ NE)
    (h0 : ∀ a, mapGet mux.MiddlewareAnchorMap K = some a → c ≤ a.ExpireAnchorIndex) :
    ∀ a, mapGet mux'.MiddlewareAnchorMap K = some a → c ≤ a.ExpireAnchorIndex :=
  (runSteps_preserves NE (fun _ => True)
    (fun m => c ≤ m.AnchorIndex ∧
      ∀ a, mapGet m.MiddlewareAnchorMap K = some a → c ≤ a.ExpireAnchorIndex)
    (fun m m' s _ hkm hQ hs => by
      beta_reduce at hQ ⊢
      have hcnt := step_counter NE m m' s hs
      refine ⟨by omega, ?_⟩
      intro a ha
      rcases step_cases NE K m m' s hkm hs with ⟨_, f, hf⟩ | ⟨_, _, b, hb, hb'⟩ | ⟨_, _, hsame⟩
      · rw [hf] at ha; simp at ha; subst ha; exact hNE
      · rw [hb'] at ha; simp at ha; subst ha; exact hQ.1
      · rw [hsame] at ha; exact hQ.2 a ha)
    ss mux mux' hrun hk (fun _ _ => trivial) ⟨hc, h0⟩).1.2

/-- A run without `AddHandler(m)` leaves the anchor and the handler of `m` alone. -/
theorem run_message_frame (NE : Nat) (m : Int) (ss : List (Step H)) (mux mux' : Mux H)
    (hrun : runSteps NE mux ss = some mux') (hk : KeyOK mux)
    (h1 : ∀ s ∈ ss, s.isAdd m = false) :
    mapGet mux'.MessageIDAnchorMap m = mapGet mux.MessageIDAnchorMap m ∧
      mapGet mux'.Handlers m = mapGet mux.Handlers m ∧
      mapGet mux'.MessageIDSelfMiddleware m = mapGet mux.MessageIDSelfMiddleware m :=
  (runSteps_preserves NE (fun s => s.isAdd m = false)
    (fun x => mapGet x.MessageIDAnchorMap m = mapGet mux.MessageIDAnchorMap m ∧
      mapGet x.Handlers m = mapGet mux.Handlers m ∧
      mapGet x.MessageIDSelfMiddleware m = mapGet mux.MessageIDSelfMiddleware m)
    (fun x x' s hC _ hQ hs => by
      beta_reduce at hC hQ ⊢
      cases s with
      | use k f =>
        obtain ⟨_, e1, e2, e3, _⟩ := apply_use NE x x' k f hs
        rw [e1, e2, e3]; exact hQ
      | unUse k =>
        obtain ⟨a, _, _, e1, e2, e3, _⟩ := apply_unUse NE x x' k hs
        rw [e1, e2, e3]; exact hQ
      | add m2 hs2 =>
        have hne : m2 ≠ m := by simpa [Step.isAdd] using hC
        obtain ⟨f, _, _, e1, e2, _, e3⟩ := apply_add NE x x' m2 hs2 hs
        rw [e1, e2, e3, mapGet_mapSet_ne _ _ _ _ hne, mapGet_mapSet_ne _ _ _ _ hne]
        refine ⟨hQ.1, hQ.2.1, ?_⟩
        by_cases hl : hs2.length > 1
        · simp only [hl, if_true]
          rw [mapGet_mapSet_ne _ _ _ _ hne]; exact hQ.2.2
        · simp only [hl, if_false]; exact hQ.2.2)
    ss mux mux' hrun hk h1 ⟨rfl, rfl, rfl⟩).1

/-- A run keeps the keys of the anchor map distinct. -/
theorem run_keysNodup (NE : Nat) (ss : List (Step H)) (mux mux' : Mux H)
    (hrun : runSteps NE mux ss = some mux') (hk : KeyOK mux) (hn : KeysNodup mux) :
    KeysNodup mux' :=
  (runSteps_preserves NE (fun _ => True) KeysNodup
    (fun m m' s _ _ hQ hs => by
      unfold KeysNodup at hQ ⊢
      cases s with
      | use k f =>
        rw [(apply_use NE m m' k f hs).1]; exact mapSet_nodup _ _ _ hQ
      | unUse k =>
        obtain ⟨a, _, e, _⟩ := apply_unUse NE m m' k hs
        rw [e]; exact mapSet_nodup _ _ _ hQ
      | add m2 hs2 =>
        obtain ⟨f, _, e, _⟩ := apply_add NE m m' m2 hs2 hs
        rw [e]; exact hQ)
    ss mux mux' hrun hk (fun _ _ => trivial) hn).1

/-- A fresh router has no entry. -/
theorem keyOK_NewMux : KeyOK (NewMux : Mux H) := by
  intro k a h
  simp [NewMux, mapGet] at h

/-- A fresh router has no key. -/
theorem keysNodup_NewMux : KeysNodup (NewMux : Mux H) := by
  simp [KeysNodup, NewMux]

/-- Along a run the entry of `K` follows `activeSteps`: an active key has an entry
with its anchor index below the counter that expires at `NOT_EXPIRE`; the
entry of a key that is not active, if any, expires below the counter. -/
theorem run_active (NE : Nat) (K : String) (ss : List (Step H)) (mux mux' : Mux H) (b : Bool)
    (hrun : runSteps NE mux ss = some mux') (hk : KeyOK mux)
    (h1 : b = true → ∃ a, mapGet mux.MiddlewareAnchorMap K = some a ∧
      a.AnchorIndex < mux.AnchorIndex ∧ a.ExpireAnchorIndex = NE)
    (h0 : b = false → ∀ a, mapGet mux.MiddlewareAnchorMap K = some a →
      a.ExpireAnchorIndex < mux.AnchorIndex) :
    (activeSteps K b ss = true → ∃ a, mapGet mux'.MiddlewareAnchorMap K = some a ∧
      a.AnchorIndex < mux'.AnchorIndex ∧ a.ExpireAnchorIndex = NE) ∧
    (activeSteps K b ss = false → ∀ a, mapGet mux'.MiddlewareAnchorMap K = some a →
      a.ExpireAnchorIndex < mux'.AnchorIndex) := by
  induction ss generalizing mux b with
  | nil =>
    simp only [runSteps, Option.some.injEq] at hrun
    subst hrun
    exact ⟨h1, h0⟩
  | cons s t ih =>
    simp only [runSteps] at hrun
    cases hs : s.apply NE mux with
    | none => simp [hs] at hrun
    | some m =>
      simp only [hs] at hrun
      have hkm := step_keyOK NE mux m s hk hs
      have hc := step_counter NE mux m s hs
      simp only [activeSteps]
      rcases step_cases NE K mux m s hk hs with
        ⟨hu, f, hf⟩ | ⟨hu, hn, a0, ha0, ha0'⟩ | ⟨hu, hn, hsame⟩
      · simp only [hu, if_true]
        exact ih m true hrun hkm
          (fun _ => ⟨_, hf, by simp; omega, rfl⟩) (fun h => by simp at h)
      · simp only [hu, hn, if_true, Bool.false_eq_true, if_false]
        exact ih m false hrun hkm (fun h => by simp at h)
          (fun _ a ha => by
            rw [ha0'] at ha
            simp only [Option.some.injEq] at ha
            subst ha
            simp; omega)
      · simp only [hu, hn, Bool.false_eq_true, if_false]
        refine ih m b hrun hkm ?_ ?_
        · intro hb
          obtain ⟨a, ha, hlt, he⟩ := h1 hb
          exact ⟨a, by rw [hsame]; exact ha, by omega, he⟩
        · intro hb a ha
          rw [hsame] at ha
          have := h0 hb a ha
          omega

/-- After a run that registers `K`, the anchor index of `K` is at least the
counter at the start of the run. -/
theorem run_use_anchor_ge (NE : Nat) (K : String) (ss : List (Step H)) (mux mux' : Mux H)
    (hrun : runSteps NE mux ss = some mux') (hk : KeyOK mux)
    (h : ∃ s ∈ ss, s.isUse K = true) :
    ∀ a, mapGet mux'.MiddlewareAnchorMap K = some a → mux.AnchorIndex ≤ a.AnchorIndex := by
  induction ss generalizing mux with
  | nil => simp at h
  | cons s t ih =>
    simp only [runSteps] at hrun
    cases hs : s.apply NE mux with
    | none => simp [hs] at hrun
    | some m =>
      simp only [hs] at hrun
      have hkm := step_keyOK NE mux m s hk hs
      have hc := step_counter NE mux m s hs
      by_cases ht : ∃ x ∈ t, x.isUse K = true
      · intro a ha
        have := ih m hrun hkm ht a ha
        omega
      · obtain ⟨x, hx, hxu⟩ := h
        rcases List.mem_cons.mp hx with rfl | hxt
        · rcases step_cases NE K mux m x hk hs with ⟨_, f, hf⟩ | ⟨hn, _⟩ | ⟨hn, _⟩
          · exact run_anchor_ge NE K mux.AnchorIndex t m mux' hrun hkm (by omega)
              (by
                intro a ha
                rw [hf] at ha
                simp only [Option.some.injEq] at ha
                subst ha
                exact Nat.le_refl _)
          · rw [hxu] at hn; exact absurd hn (by simp)
          · rw [hxu] at hn; exact absurd hn (by simp)
        · exact absurd ⟨x, hxt, hxu⟩ ht

/-- Registration window on single registrations, from a fresh router: the entry
of `K` covers the anchor of the last `AddHandler(m)` exactly when `K` is active
at that registration and is not registered again after it. -/
theorem steps_window (NE : Nat) (K : String) (m : Int) (hs : List H)
    (sb sa : List (Step H)) (mux : Mux H)
    (hrun : runSteps NE NewMux (sb ++ Step.add m hs :: sa) = some mux)
    (honce : ∀ s ∈ sa, s.isAdd m = false)
    (hbound : mux.AnchorIndexOfMessageID m ≤ NE)
    (hslip : activeSteps K false sb = false → (∀ s ∈ sa, s.isUse K = false) →
      ∀ s ∈ sa, s.isUnUse K = false) :
    ∃ f : H, hs.getLast? = some f ∧
      mapGet mux.Handlers m = some f ∧
      KeyOK mux ∧ KeysNodup mux ∧
      ((∃ a, mapGet mux.MiddlewareAnchorMap K = some a
          ∧ a.AnchorIndex < mux.AnchorIndexOfMessageID m
          ∧ mux.AnchorIndexOfMessageID m ≤ a.ExpireAnchorIndex)
        ↔ activeSteps K false sb = true ∧ ∀ s ∈ sa, s.isUse K = false) := by
  have hsuf0 := hrun
  rw [runSteps_append] at hsuf0
  cases h1 : runSteps NE NewMux sb with
  | none => simp [h1] at hsuf0
  | some m1 =>
    simp only [h1, Option.some_bind] at hsuf0
    have hsuf := hsuf0
    simp only [runSteps] at hsuf0
    cases h2 : (Step.add m hs).apply NE m1 with
    | none => simp [h2] at hsuf0
    | some m2 =>
      simp only [h2] at hsuf0
      have hk1 : KeyOK m1 := run_keyOK NE sb NewMux m1 h1 keyOK_NewMux
      have hk2 : KeyOK m2 := step_keyOK NE m1 m2 _ hk1 h2
      have hkf : KeyOK mux := run_keyOK NE sa m2 mux hsuf0 hk2
      have hnf : KeysNodup mux :=
        run_keysNodup NE _ NewMux mux hrun keyOK_NewMux keysNodup_NewMux
      have hc2 : m2.AnchorIndex = m1.AnchorIndex + 1 := step_counter NE m1 m2 _ h2
      obtain ⟨f, hf, emap, eanchor, ehandler, _, _⟩ := apply_add NE m1 m2 m hs h2
      obtain ⟨fr1, fr2, _⟩ := run_message_frame NE m sa m2 mux hsuf0 hk2 honce
      have hanchor : mapGet mux.MessageIDAnchorMap m = some ⟨m, m1.AnchorIndex + 1⟩ := by
        rw [fr1, eanchor, mapGet_mapSet_self]
      have hidx : mux.AnchorIndexOfMessageID m = m1.AnchorIndex + 1 := by
        simp [Mux.AnchorIndexOfMessageID, hanchor]
      rw [hidx] at hbound ⊢
      refine ⟨f, hf, ?_, hkf, hnf, ?_⟩
      · rw [fr2, ehandler, mapGet_mapSet_self]
      obtain ⟨hact, hinact⟩ := run_active NE K sb NewMux m1 false h1 keyOK_NewMux
        (fun h => by simp at h) (fun _ a ha => by simp [NewMux, mapGet] at ha)
      constructor
      · rintro ⟨a, ha, hlo, hhi⟩
        have hnoUse : ∀ s ∈ sa, s.isUse K = false := by
          intro s hs'
          by_contra hx
          have := run_use_anchor_ge NE K sa m2 mux hsuf0 hk2 ⟨s, hs', by simpa using hx⟩ a ha
          omega
        refine ⟨?_, hnoUse⟩
        by_contra hb
        have hb' : activeSteps K false sb = false := by simpa using hb
        have hnoUn := hslip hb' hnoUse
        have hfr := run_frame NE K (Step.add m hs :: sa) m1 mux hsuf hk1
          (by
            intro s hs'
            rcases List.mem_cons.mp hs' with rfl | h'
            · rfl
            · exact hnoUse s h')
          (by
            intro s hs'
            rcases List.mem_cons.mp hs' with rfl | h'
            · rfl
            · exact hnoUn s h')
        have := hinact hb' a (by rw [← hfr]; exact ha)
        omega
      · rintro ⟨hb, hnoUse⟩
        obtain ⟨a1, ha1, hlt1, he1⟩ := hact hb
        have hfr := run_anchor_frame NE K (Step.add m hs :: sa) m1 mux hsuf hk1
          (by
            intro s hs'
            rcases List.mem_cons.mp hs' with rfl | h'
            · rfl
            · exact hnoUse s h')
        rw [ha1] at hfr
        cases hg : mapGet mux.MiddlewareAnchorMap K with
        | none => rw [hg] at hfr; simp at hfr
        | some a =>
          rw [hg] at hfr
          simp only [Option.map_some', Option.some.injEq] at hfr
          refine ⟨a, rfl, by omega, ?_⟩
          exact run_expire_ge NE K (m1.AnchorIndex + 1) sa m2 mux hsuf0 hk2 (by omega) hbound
            (by
              intro a' ha'
              rw [emap, ha1] at ha'
              simp only [Option.some.injEq] at ha'
              subst ha'
              rw [he1]
              exact hbound)
            a hg

/-- The arguments of `Use` for a list of pairs come in pairs. -/
theorem useArgs_length_even (pairs : List (String × H)) : (useArgs pairs).length % 2 = 0 := by
  induction pairs with
  | nil => rfl
  | cons p t ih =>
    obtain ⟨k, f⟩ := p
    simp only [useArgs, List.length_cons]
    omega

/-- The loop of `Use` on well-typed pairs performs one registration per pair and does not panic. -/
theorem useLoop_useArgs (NE : Nat) (mux : Mux H) (pairs : List (String × H)) (i : Nat) :
    ∃ mux', runSteps NE mux (pairs.map fun p => Step.use p.1 p.2) = some mux' ∧
      useLoop NE mux (useArgs pairs) i = (mux', none) := by
  induction pairs generalizing mux i with
  | nil => exact ⟨mux, rfl, rfl⟩
  | cons p t ih =>
    obtain ⟨k, f⟩ := p
    obtain ⟨mux', h1, h2⟩ := ih
      (mux.AddMiddlewareAnchor
        { Middleware := f, MiddlewareKey := k, AnchorIndex := mux.CurrentAnchorIndex,
          ExpireAnchorIndex := NE }) (i + 2)
    refine ⟨mux', ?_, ?_⟩
    · simpa [runSteps, Step.apply] using h1
    · simpa [useArgs, useLoop] using h2

/-- The loop of `UnUse`, when it does not panic, performs one retirement per key. -/
theorem unUseLoop_steps (NE : Nat) (mux mux' : Mux H) (keys : List String)
    (h : unUseLoop mux keys = (mux', none)) :
    runSteps NE mux (keys.map Step.unUse) = some mux' := by
  induction keys generalizing mux with
  | nil =>
    simp [unUseLoop] at h
    subst h
    rfl
  | cons k t ih =>
    simp only [unUseLoop] at h
    cases hk : mapGet mux.MiddlewareAnchorMap k with
    | none => simp [hk] at h
    | some a =>
      simp only [hk] at h
      simp only [List.map_cons, runSteps, Step.apply, hk]
      exact ih _ h

/-- A call that does not panic, on a server with a router, performs its single registrations. -/
theorem apply_steps (NE : Nat) (tcpx tcpx' : TcpX H) (mux : Mux H) (c : Call H)
    (hmux : tcpx.Mux = some mux) (h : c.apply NE tcpx = (tcpx', none)) :
    ∃ mux', tcpx' = { tcpx with Mux := some mux' } ∧ runSteps NE mux c.steps = some mux' := by
  cases c with
  | Use pairs =>
    obtain ⟨mux', h1, h2⟩ := useLoop_useArgs NE mux pairs 0
    refine ⟨mux', ?_, h1⟩
    simp only [Call.apply, Use, muxOrNew, hmux, useArgs_length_even, ne_eq,
      not_true_eq_false, if_false, h2, Prod.mk.injEq, and_true] at h
    exact h.symm
  | UnUse keys =>
    simp only [Call.apply, UnUse, hmux, Prod.mk.injEq] at h
    obtain ⟨h1, h2⟩ := h
    refine ⟨(unUseLoop mux keys).1, h1.symm, ?_⟩
    exact unUseLoop_steps NE mux _ keys (Prod.ext rfl h2)
  | AddHandler m hs =>
    simp only [Call.apply] at h
    cases hf : hs.getLast? with
    | none => simp [AddHandler, hf] at h
    | some f =>
      rw [AddHandler_eq tcpx mux m hs f hmux hf] at h
      simp only [Prod.mk.injEq, and_true] at h
      exact ⟨_, h.symm, by simp [Call.steps, runSteps, Step.apply, hf]⟩

/-- Calls that do not panic, on a server with a router, perform their single registrations. -/
theorem runCalls_steps (NE : Nat) (cs : List (Call H)) (tcpx tcpx' : TcpX H) (mux : Mux H)
    (hmux : tcpx.Mux = some mux) (h : runCalls NE tcpx cs = (tcpx', none)) :
    ∃ mux', tcpx' = { tcpx with Mux := some mux' } ∧
      runSteps NE mux (stepsOf cs) = some mux' := by
  induction cs generalizing tcpx mux with
  | nil =>
    simp only [runCalls, Prod.mk.injEq, and_true] at h
    subst h
    refine ⟨mux, ?_, rfl⟩
    cases tcpx
    simp only at hmux
    simp [hmux]
  | cons c t ih =>
    simp only [runCalls] at h
    cases hc : c.apply NE tcpx with
    | mk t1 p =>
      cases p with
      | some p => simp [hc] at h
      | none =>
        simp only [hc] at h
        obtain ⟨mux1, e1, r1⟩ := apply_steps NE tcpx t1 mux c hmux hc
        have hm1 : t1.Mux = some mux1 := by rw [e1]
        obtain ⟨mux', e2, r2⟩ := ih t1 mux1 hm1 h
        refine ⟨mux', ?_, ?_⟩
        · rw [e2, e1]
        · simp only [stepsOf, runSteps_append, r1, Option.some_bind, r2]

/-- Single registrations of a concatenation. -/
theorem stepsOf_append (cs1 cs2 : List (Call H)) :
    stepsOf (cs1 ++ cs2) = stepsOf cs1 ++ stepsOf cs2 := by
  induction cs1 with
  | nil => rfl
  | cons c t ih => simp [stepsOf, ih]

/-- Some step registers `K` exactly when some call does. -/
theorem exists_isUse_stepsOf (K : String) (cs : List (Call H)) :
    (∃ s ∈ stepsOf cs, s.isUse K = true) ↔ ∃ c ∈ cs, c.uses K = true := by
  induction cs with
  | nil => simp [stepsOf]
  | cons c t ih =>
    have hc : (∃ s ∈ c.steps, s.isUse K = true) ↔ c.uses K = true := by
      cases c with
      | Use pairs =>
        simp only [Call.steps, Call.uses, List.mem_map, decide_eq_true_eq]
        constructor
        · rintro ⟨s, ⟨p, hp, rfl⟩, hs⟩
          have : p.1 = K := by simpa [Step.isUse] using hs
          exact ⟨p, hp, this⟩
        · rintro ⟨p, hp, rfl⟩
          exact ⟨_, ⟨p, hp, rfl⟩, by simp [Step.isUse]⟩
      | UnUse keys =>
        simp only [Call.steps, Call.uses, List.mem_map]
        constructor
        · rintro ⟨s, ⟨k, _, rfl⟩, hs⟩
          simp [Step.isUse] at hs
        · intro h; simp at h
      | AddHandler m hs => simp [Call.steps, Call.uses, Step.isUse]
    simp only [stepsOf, List.mem_append, List.mem_cons]
    constructor
    · rintro ⟨s, hs | hs, hu⟩
      · exact ⟨c, Or.inl rfl, hc.mp ⟨s, hs, hu⟩⟩
      · obtain ⟨c', hc', hu'⟩ := ih.mp ⟨s, hs, hu⟩
        exact ⟨c', Or.inr hc', hu'⟩
    · rintro ⟨c', rfl | hc', hu⟩
      · obtain ⟨s, hs, hs'⟩ := hc.mpr hu
        exact ⟨s, Or.inl hs, hs'⟩
      · obtain ⟨s, hs, hs'⟩ := ih.mpr ⟨c', hc', hu⟩
        exact ⟨s, Or.inr hs, hs'⟩

/-- No step retires `K` exactly when no call does. -/
theorem forall_isUnUse_stepsOf (K : String) (cs : List (Call H)) :
    (∀ s ∈ stepsOf cs, s.isUnUse K = false) ↔ ∀ c ∈ cs, c.unUses K = false := by
  induction cs with
  | nil => simp [stepsOf]
  | cons c t ih =>
    have hc : (∀ s ∈ c.steps, s.isUnUse K = false) ↔ c.unUses K = false := by
      cases c with
      | UnUse keys =>
        simp only [Call.steps, Call.unUses, List.mem_map, decide_eq_false_iff_not]
        constructor
        · intro h hK
          have := h (Step.unUse K) ⟨K, hK, rfl⟩
          simp [Step.isUnUse] at this
        · rintro h s ⟨k, hk, rfl⟩
          have : k ≠ K := fun e => h (e ▸ hk)
          simp [Step.isUnUse, this]
      | Use pairs =>
        simp only [Call.steps, Call.unUses, List.mem_map, iff_true]
        rintro s ⟨p, _, rfl⟩
        rfl
      | AddHandler m hs => simp [Call.steps, Call.unUses, Step.isUnUse]
    simp only [stepsOf, List.mem_append, List.mem_cons]
    constructor
    · rintro h c' (rfl | hc')
      · exact hc.mp fun s hs => h s (Or.inl hs)
      · exact ih.mp (fun s hs => h s (Or.inr hs)) c' hc'
    · rintro h s (hs | hs)
      · exact hc.mpr (h c (Or.inl rfl)) s hs
      · exact ih.mpr (fun c' hc' => h c' (Or.inr hc')) s hs

/-- Calls that do not register `m` perform no step that does. -/
theorem forall_isAdd_stepsOf (m : Int) (cs : List (Call H))
    (h : ∀ c ∈ cs, c.adds m = false) : ∀ s ∈ stepsOf cs, s.isAdd m = false := by
  induction cs with
  | nil => simp [stepsOf]
  | cons c t ih =>
    intro s hs
    simp only [stepsOf, List.mem_append] at hs
    rcases hs with hs | hs
    · have hc := h c (List.mem_cons_self _ _)
      cases c with
      | Use pairs =>
        obtain ⟨p, _, rfl⟩ := List.mem_map.mp hs
        rfl
      | UnUse keys =>
        obtain ⟨k, _, rfl⟩ := List.mem_map.mp hs
        rfl
      | AddHandler m2 hs2 =>
        simp only [Call.steps, List.mem_singleton] at hs
        subst hs
        simpa [Call.adds, Step.isAdd] using hc
    · exact ih (fun c' hc' => h c' (List.mem_cons_of_mem _ hc')) s hs

/-- Activity after the registrations of one `Use` call. -/
theorem activeSteps_use (K : String) (pairs : List (String × H)) (rest : List (Step H))
    (b : Bool) :
    activeSteps K b (pairs.map (fun p => Step.use p.1 p.2) ++ rest)
      = activeSteps K (if decide (K ∈ pairs.map Prod.fst) then true else b) rest := by
  induction pairs generalizing b with
  | nil => simp
  | cons p t ih =>
    obtain ⟨k, f⟩ := p
    simp only [List.map_cons, List.cons_append, activeSteps, List.append_eq]
    rw [ih]
    by_cases hk : k = K
    · subst hk
      simp [Step.isUse]
    · have hk' : ¬ K = k := fun e => hk e.symm
      have hb : (K == k) = false := by simpa using hk'
      simp [Step.isUse, Step.isUnUse, hk, hk', hb]

/-- Activity after the retirements of one `UnUse` call. -/
theorem activeSteps_unUse (K : String) (keys : List String) (rest : List (Step H))
    (b : Bool) :
    activeSteps K b (keys.map (Step.unUse : String → Step H) ++ rest)
      = activeSteps K (if decide (K ∈ keys) then false else b) rest := by
  induction keys generalizing b with
  | nil => simp
  | cons k t ih =>
    simp only [List.map_cons, List.cons_append, activeSteps, List.append_eq]
    rw [ih]
    by_cases hk : k = K
    · subst hk
      simp [Step.isUse, Step.isUnUse]
    · have hk' : ¬ K = k := fun e => hk e.symm
      have hb : (K == k) = false := by simpa using hk'
      simp [Step.isUse, Step.isUnUse, hk, hk', hb]

/-- Activity on single registrations and on calls agree. -/
theorem activeSteps_stepsOf (K : String) (cs : List (Call H)) (b : Bool) :
    activeSteps K b (stepsOf cs) = activeAfter K b cs := by
  induction cs generalizing b with
  | nil => rfl
  | cons c t ih =>
    cases c with
    | Use pairs =>
      simp only [stepsOf, Call.steps, activeSteps_use, ih, activeAfter, Call.uses,
        Call.unUses]
      simp
    | UnUse keys =>
      simp only [stepsOf, Call.steps, activeSteps_unUse, ih, activeAfter, Call.uses,
        Call.unUses]
      simp
    | AddHandler m hs =>
      simp only [stepsOf, Call.steps, List.singleton_append, activeSteps, Step.isUse,
        Step.isUnUse, activeAfter, Call.uses, Call.unUses]
      simpa using ih b

/-- No step registers `K` exactly when no call does. -/
theorem forall_isUse_stepsOf (K : String) (cs : List (Call H)) :
    (∀ s ∈ stepsOf cs, s.isUse K = false) ↔ ∀ c ∈ cs, c.uses K = false := by
  constructor
  · intro h c hc
    by_contra hx
    obtain ⟨s, hs, hu⟩ := (exists_isUse_stepsOf K cs).mpr ⟨c, hc, by simpa using hx⟩
    rw [h s hs] at hu
    exact absurd hu (by simp)
  · intro h s hs
    by_contra hx
    obtain ⟨c, hc, hu⟩ := (exists_isUse_stepsOf K cs).mp ⟨s, hs, by simpa using hx⟩
    rw [h c hc] at hu
    exact absurd hu (by simp)

/-- Registration window on calls, general statement: the chain of `m` holds the
entry of `K` exactly when `K` is active at the last `AddHandler(m)` and is not
registered again after it. -/
theorem window_of_calls {B E : Type} (NOT_EXPIRE : Nat) (before after : List (Call H))
    (m : Int) (hs : List H) (K : String) (tcpx : TcpX H) (mux : Mux H)
    (MessageIDOf : B → Except E Int)
    (range : List (String × MiddlewareAnchor H) → List (String × MiddlewareAnchor H))
    (stream : B)
    (hrun : runCalls NOT_EXPIRE NewTcpX (before ++ Call.AddHandler m hs :: after) = (tcpx, none))
    (hmux : tcpx.Mux = some mux)
    (hlast : ∀ c ∈ after, c.adds m = false)
    (hbound : mux.AnchorIndexOfMessageID m ≤ NOT_EXPIRE)
    (hslip : activeAfter K false before = false → (∀ c ∈ after, c.uses K = false) →
      ∀ c ∈ after, c.unUses K = false)
    (hid : MessageIDOf stream = .ok m)
    (hrange : (range mux.MiddlewareAnchorMap).Perm mux.MiddlewareAnchorMap) :
    ∃ (bucket : List (MiddlewareAnchor H)) (handler : H),
      hs.getLast? = some handler ∧
      dispatch MessageIDOf range tcpx [] stream
        = .ran (mux.GlobalMiddlewares ++ bucket.map (fun a => a.Middleware)
            ++ (mapGet mux.MessageIDSelfMiddleware m).getD [] ++ [handler]) ∧
      bucket.Sublist (mapValues (range mux.MiddlewareAnchorMap)) ∧
      ((∃ a ∈ bucket, a.MiddlewareKey = K)
        ↔ activeAfter K false before = true ∧ ∀ c ∈ after, c.uses K = false) := by
  obtain ⟨mux', e, r⟩ := runCalls_steps NOT_EXPIRE _ NewTcpX tcpx NewMux rfl hrun
  have hmm : mux' = mux := by
    rw [e] at hmux
    simpa using hmux
  subst hmm
  have hmode : tcpx.OnMessage = none := by rw [e]; rfl
  have hsteps : stepsOf (before ++ Call.AddHandler m hs :: after)
      = stepsOf before ++ Step.add m hs :: stepsOf after := by
    rw [stepsOf_append]; rfl
  rw [hsteps] at r
  obtain ⟨f, hf, hhandler, hkey, hnodup, hiff⟩ :=
    steps_window NOT_EXPIRE K m hs (stepsOf before) (stepsOf after) mux' r
      (forall_isAdd_stepsOf m after hlast) hbound
      (by
        rw [activeSteps_stepsOf, forall_isUse_stepsOf, forall_isUnUse_stepsOf]
        exact hslip)
  refine ⟨(mapValues (range mux'.MiddlewareAnchorMap)).filter
      (fun a => decide (a.AnchorIndex < mux'.AnchorIndexOfMessageID m)
        && decide (mux'.AnchorIndexOfMessageID m ≤ a.ExpireAnchorIndex)),
    f, hf, ?_, List.filter_sublist _, ?_⟩
  · simpa using dispatch_mux_mode MessageIDOf range tcpx mux' [] stream m f hmode hmux hid
      hhandler
  · rw [← activeSteps_stepsOf, ← forall_isUse_stepsOf, ← hiff]
    constructor
    · rintro ⟨a, ha, hK⟩
      simp only [List.mem_filter, mapValues, List.mem_map, Bool.and_eq_true,
        decide_eq_true_eq] at ha
      obtain ⟨⟨kv, hkv, rfl⟩, hw⟩ := ha
      have hmem : kv ∈ mux'.MiddlewareAnchorMap := hrange.mem_iff.mp hkv
      have hget : mapGet mux'.MiddlewareAnchorMap kv.1 = some kv.2 :=
        mapGet_of_mem _ _ _ hnodup hmem
      have hk1 : kv.2.MiddlewareKey = kv.1 := hkey _ _ hget
      rw [← hK, hk1]
      exact ⟨kv.2, hget, hw⟩
    · rintro ⟨a, ha, hw⟩
      refine ⟨a, ?_, hkey K a ha⟩
      simp only [List.mem_filter, mapValues, List.mem_map, Bool.and_eq_true,
        decide_eq_true_eq]
      exact ⟨⟨(K, a), hrange.mem_iff.mpr (mapGet_mem _ _ _ ha), rfl⟩, hw⟩

/-- Scenario B runs without panic and leaves `scenarioBMux`, whatever `NOT_EXPIRE` is. -/
theorem scenarioB_state (NE : Nat) :
    runCalls NE NewTcpX scenarioBCalls = (⟨none, none, none, some (scenarioBMux NE)⟩, none) := by
  rfl

/-- The example of the comment of `UnUse` runs without panic and leaves `unUseExampleMux`. -/
theorem unUseExample_state (NE : Nat) :
    runCalls NE NewTcpX unUseExampleCalls
      = (⟨none, none, none, some (unUseExampleMux NE)⟩, none) := by
  rfl

/-- Chain in mux-routing mode for the identity codec: the anchored bucket is a
permutation of the middlewares of the applicable entries of the map. -/
theorem dispatch_bucket_perm
    (range : List (String × MiddlewareAnchor H) → List (String × MiddlewareAnchor H))
    (tcpx : TcpX H) (mux : Mux H) (messageID : Int) (handler : H)
    (hmode : tcpx.OnMessage = none) (hmux : tcpx.Mux = some mux)
    (hhandler : mapGet mux.Handlers messageID = some handler)
    (hrange : (range mux.MiddlewareAnchorMap).Perm mux.MiddlewareAnchorMap) :
    ∃ bucket : List H,
      bucket.Perm (((mapValues mux.MiddlewareAnchorMap).filter
        (fun a => decide (a.AnchorIndex < mux.AnchorIndexOfMessageID messageID)
          && decide (mux.AnchorIndexOfMessageID messageID ≤ a.ExpireAnchorIndex))).map
        (fun a => a.Middleware)) ∧
      dispatch (fun b : Int => (Except.ok b : Except String Int)) range tcpx [] messageID
        = .ran (mux.GlobalMiddlewares ++ bucket
            ++ (mapGet mux.MessageIDSelfMiddleware messageID).getD [] ++ [handler]) := by
  refine ⟨_, ((hrange.map _).filter _).map _, ?_⟩
  simpa using dispatch_mux_mode (fun b : Int => (Except.ok b : Except String Int)) range tcpx
    mux [] messageID messageID handler hmode hmux rfl hhandler

/-- Scenario B for every iteration order of the anchor map. -/
theorem scenarioB_chains (NE : Nat) (hNE : 6 ≤ NE)
    (range : List (String × MiddlewareAnchor String) → List (String × MiddlewareAnchor String))
    (hrange : ∀ m, (range m).Perm m) :
    dispatch idOfBlock range (runCalls NE NewTcpX scenarioBCalls).1 [] 1 = .ran ["mA", "h1"] ∧
    (∃ bucket : List String, bucket.Perm ["mA", "mB"] ∧
      dispatch idOfBlock range (runCalls NE NewTcpX scenarioBCalls).1 [] 2
        = .ran (bucket ++ ["h2"])) ∧
    dispatch idOfBlock range (runCalls NE NewTcpX scenarioBCalls).1 [] 3
      = .ran ["mB", "h3"] := by
  rw [scenarioB_state NE]
  refine ⟨?_, ?_, ?_⟩
  · obtain ⟨bucket, hp, hd⟩ := dispatch_bucket_perm range
      ⟨none, none, none, some (scenarioBMux NE)⟩ (scenarioBMux NE) 1 "h1" rfl rfl rfl
      (hrange _)
    have hb : bucket = ["mA"] := by
      apply List.perm_singleton.mp
      simpa [mapValues, Mux.AnchorIndexOfMessageID, mapGet, scenarioBMux] using hp
    subst hb
    simpa [scenarioBMux, idOfBlock] using hd
  · obtain ⟨bucket, hp, hd⟩ := dispatch_bucket_perm range
      ⟨none, none, none, some (scenarioBMux NE)⟩ (scenarioBMux NE) 2 "h2" rfl rfl rfl
      (hrange _)
    refine ⟨bucket, ?_, ?_⟩
    · have : 4 ≤ NE := by omega
      simpa [mapValues, Mux.AnchorIndexOfMessageID, mapGet, scenarioBMux, this] using hp
    · simpa [scenarioBMux, idOfBlock] using hd
  · obtain ⟨bucket, hp, hd⟩ := dispatch_bucket_perm range
      ⟨none, none, none, some (scenarioBMux NE)⟩ (scenarioBMux NE) 3 "h3" rfl rfl rfl
      (hrange _)
    have hb : bucket = ["mB"] := by
      apply List.perm_singleton.mp
      simpa [mapValues, Mux.AnchorIndexOfMessageID, mapGet, scenarioBMux, hNE] using hp
    subst hb
    simpa [scenarioBMux, idOfBlock] using hd

/-- The example of the comment of `UnUse` for every iteration order of the anchor map. -/
theorem unUseExample_chains (NE : Nat) (hNE : 5 ≤ NE)
    (range : List (String × MiddlewareAnchor String) → List (String × MiddlewareAnchor String))
    (hrange : ∀ m, (range m).Perm m) :
    (∃ bucket : List String, bucket.Perm ["Middleware1", "Middleware2"] ∧
      dispatch idOfBlock range (runCalls NE NewTcpX unUseExampleCalls).1 [] 1
        = .ran (bucket ++ ["SayHello"])) ∧
    dispatch idOfBlock range (runCalls NE NewTcpX unUseExampleCalls).1 [] 3
      = .ran ["Middleware1", "SayGoodBye"] := by
  rw [unUseExample_state NE]
  refine ⟨?_, ?_⟩
  · obtain ⟨bucket, hp, hd⟩ := dispatch_bucket_perm range
      ⟨none, none, none, some (unUseExampleMux NE)⟩ (unUseExampleMux NE) 1 "SayHello"
      rfl rfl rfl (hrange _)
    refine ⟨bucket, ?_, ?_⟩
    · have : 3 ≤ NE := by omega
      simpa [mapValues, Mux.AnchorIndexOfMessageID, mapGet, unUseExampleMux, this] using hp
    · simpa [unUseExampleMux, idOfBlock] using hd
  · obtain ⟨bucket, hp, hd⟩ := dispatch_bucket_perm range
      ⟨none, none, none, some (unUseExampleMux NE)⟩ (unUseExampleMux NE) 3 "SayGoodBye"
      rfl rfl rfl (hrange _)
    have hb : bucket = ["Middleware1"] := by
      apply List.perm_singleton.mp
      simpa [mapValues, Mux.AnchorIndexOfMessageID, mapGet, unUseExampleMux, hNE] using hp
    subst hb
    simpa [unUseExampleMux, idOfBlock] using hd

/-! ## Anchor inclusion and chain order -/

/-- C1 (anchor inclusion in mux-routing mode). With `OnMessage` nil, for every
router and every block whose message id has a handler, the closure runs the
chain made of the global middlewares, the bucket of anchored middlewares, the
self-middlewares of the id and the handler; the bucket is taken from the
entries of `MiddlewareAnchorMap` in the order of the iteration, and an entry
`a` of the map is in it if and only if `a.AnchorIndex < h ≤ a.ExpireAnchorIndex`,
where `h` is `AnchorIndexOfMessageID` of the id. When the function of `a` is
registered nowhere else, this is also when that function occurs in the chain. -/
theorem anchor_inclusion {B E : Type} (MessageIDOf : B → Except E Int)
    (range : List (String × MiddlewareAnchor H) → List (String × MiddlewareAnchor H))
    (tcpx : TcpX H) (mux : Mux H) (stream : B) (messageID : Int) (handler : H)
    (hmode : tcpx.OnMessage = none) (hmux : tcpx.Mux = some mux)
    (hid : MessageIDOf stream = .ok messageID)
    (hhandler : mapGet mux.Handlers messageID = some handler)
    (hrange : (range mux.MiddlewareAnchorMap).Perm mux.MiddlewareAnchorMap) :
    ∃ (bucket : List (MiddlewareAnchor H)) (chain : List H),
      dispatch MessageIDOf range tcpx [] stream = .ran chain ∧
      chain = mux.GlobalMiddlewares ++ bucket.map (fun a => a.Middleware)
          ++ (mapGet mux.MessageIDSelfMiddleware messageID).getD [] ++ [handler] ∧
      bucket.Sublist (mapValues (range mux.MiddlewareAnchorMap)) ∧
      (∀ a ∈ mapValues mux.MiddlewareAnchorMap,
        (a ∈ bucket ↔ a.AnchorIndex < mux.AnchorIndexOfMessageID messageID
          ∧ mux.AnchorIndexOfMessageID messageID ≤ a.ExpireAnchorIndex)) ∧
      (∀ a ∈ mapValues mux.MiddlewareAnchorMap,
        a.Middleware ∉ mux.GlobalMiddlewares →
        a.Middleware ∉ (mapGet mux.MessageIDSelfMiddleware messageID).getD [] →
        a.Middleware ≠ handler →
        (∀ b ∈ mapValues mux.MiddlewareAnchorMap, b.Middleware = a.Middleware → b = a) →
        (a.Middleware ∈ chain ↔ a.AnchorIndex < mux.AnchorIndexOfMessageID messageID
          ∧ mux.AnchorIndexOfMessageID messageID ≤ a.ExpireAnchorIndex)) := by
  have hperm : (mapValues (range mux.MiddlewareAnchorMap)).Perm
      (mapValues mux.MiddlewareAnchorMap) := hrange.map _
  refine ⟨(mapValues (range mux.MiddlewareAnchorMap)).filter
      (fun a => decide (a.AnchorIndex < mux.AnchorIndexOfMessageID messageID)
        && decide (mux.AnchorIndexOfMessageID messageID ≤ a.ExpireAnchorIndex)),
    _, ?_, rfl, List.filter_sublist _, ?_, ?_⟩
  · simpa using dispatch_mux_mode MessageIDOf range tcpx mux [] stream messageID handler
      hmode hmux hid hhandler
  · intro a ha
    simp [List.mem_filter, hperm.mem_iff, ha]
  · intro a ha hG hS hh huniq
    simp only [List.mem_append, List.mem_map, List.mem_filter, List.mem_singleton,
      hperm.mem_iff, Bool.and_eq_true, decide_eq_true_eq]
    constructor
    · rintro (((h | ⟨b, ⟨hb, hw⟩, hbe⟩) | h) | h)
      · exact absurd h hG
      · rw [huniq b hb hbe] at hw; exact hw
      · exact absurd h hS
      · exact absurd h hh
    · intro hw
      exact Or.inl (Or.inl (Or.inr ⟨a, ⟨ha, hw⟩, rfl⟩))

/-- Instance of C1 on scenario B of the spec, for message id 3. -/
theorem anchor_inclusion_witness :
    ∃ (bucket : List (MiddlewareAnchor String)) (chain : List String),
      dispatch idOfBlock id scenarioB [] 3 = .ran chain ∧
      chain = (muxOrNew scenarioB).GlobalMiddlewares ++ bucket.map (fun a => a.Middleware)
          ++ (mapGet (muxOrNew scenarioB).MessageIDSelfMiddleware 3).getD [] ++ ["h3"] ∧
      bucket.Sublist (mapValues (id (muxOrNew scenarioB).MiddlewareAnchorMap)) ∧
      (∀ a ∈ mapValues (muxOrNew scenarioB).MiddlewareAnchorMap,
        (a ∈ bucket ↔ a.AnchorIndex < (muxOrNew scenarioB).AnchorIndexOfMessageID 3
          ∧ (muxOrNew scenarioB).AnchorIndexOfMessageID 3 ≤ a.ExpireAnchorIndex)) ∧
      (∀ a ∈ mapValues (muxOrNew scenarioB).MiddlewareAnchorMap,
        a.Middleware ∉ (muxOrNew scenarioB).GlobalMiddlewares →
        a.Middleware ∉ (mapGet (muxOrNew scenarioB).MessageIDSelfMiddleware 3).getD [] →
        a.Middleware ≠ "h3" →
        (∀ b ∈ mapValues (muxOrNew scenarioB).MiddlewareAnchorMap,
          b.Middleware = a.Middleware → b = a) →
        (a.Middleware ∈ chain ↔ a.AnchorIndex < (muxOrNew scenarioB).AnchorIndexOfMessageID 3
          ∧ (muxOrNew scenarioB).AnchorIndexOfMessageID 3 ≤ a.ExpireAnchorIndex)) :=
  anchor_inclusion idOfBlock id scenarioB (muxOrNew scenarioB) 3 3 "h3"
    (by decide) (by decide) rfl (by decide) (List.Perm.refl _)

/-- C2, amended (chain ordering). With `OnMessage` nil, for every router, every
block whose message id has a handler and every order in which the runtime
visits `MiddlewareAnchorMap`, the chain built from an empty `ctx.handlers` is:
the global middlewares in their stored (registration) order, then the
applicable anchored middlewares, each once, in the order of the iteration of
the map (which need not be the registration order), then the self-middlewares
of the id in their stored order, then the handler as last element. -/
theorem chain_buckets_in_order {B E : Type} (MessageIDOf : B → Except E Int)
    (range : List (String × MiddlewareAnchor H) → List (String × MiddlewareAnchor H))
    (tcpx : TcpX H) (mux : Mux H) (stream : B) (messageID : Int) (handler : H)
    (hmode : tcpx.OnMessage = none) (hmux : tcpx.Mux = some mux)
    (hid : MessageIDOf stream = .ok messageID)
    (hhandler : mapGet mux.Handlers messageID = some handler)
    (hrange : (range mux.MiddlewareAnchorMap).Perm mux.MiddlewareAnchorMap) :
    ∃ bucket : List (MiddlewareAnchor H),
      dispatch MessageIDOf range tcpx [] stream
        = .ran (mux.GlobalMiddlewares ++ bucket.map (fun a => a.Middleware)
            ++ (mapGet mux.MessageIDSelfMiddleware messageID).getD [] ++ [handler]) ∧
      bucket.Sublist (mapValues (range mux.MiddlewareAnchorMap)) ∧
      bucket.Perm ((mapValues mux.MiddlewareAnchorMap).filter
        (fun a => decide (a.AnchorIndex < mux.AnchorIndexOfMessageID messageID)
          && decide (mux.AnchorIndexOfMessageID messageID ≤ a.ExpireAnchorIndex))) := by
  refine ⟨(mapValues (range mux.MiddlewareAnchorMap)).filter
      (fun a => decide (a.AnchorIndex < mux.AnchorIndexOfMessageID messageID)
        && decide (mux.AnchorIndexOfMessageID messageID ≤ a.ExpireAnchorIndex)),
    ?_, List.filter_sublist _, (hrange.map _).filter _⟩
  simpa using dispatch_mux_mode MessageIDOf range tcpx mux [] stream messageID handler
    hmode hmux hid hhandler

/-- Instance of the amended C2 on scenario B, for message id 2 and the reverse iteration. -/
theorem chain_buckets_in_order_witness :
    ∃ bucket : List (MiddlewareAnchor String),
      dispatch idOfBlock List.reverse scenarioB [] 2
        = .ran ((muxOrNew scenarioB).GlobalMiddlewares ++ bucket.map (fun a => a.Middleware)
            ++ (mapGet (muxOrNew scenarioB).MessageIDSelfMiddleware 2).getD [] ++ ["h2"]) ∧
      bucket.Sublist (mapValues (List.reverse (muxOrNew scenarioB).MiddlewareAnchorMap)) ∧
      bucket.Perm ((mapValues (muxOrNew scenarioB).MiddlewareAnchorMap).filter
        (fun a => decide (a.AnchorIndex < (muxOrNew scenarioB).AnchorIndexOfMessageID 2)
          && decide ((muxOrNew scenarioB).AnchorIndexOfMessageID 2 ≤ a.ExpireAnchorIndex))) :=
  chain_buckets_in_order idOfBlock List.reverse scenarioB (muxOrNew scenarioB) 2 2 "h2"
    (by decide) (by decide) rfl (by decide) (List.reverse_perm _)

/-- C2 as stated fails: after `Use("A", mA, "B", mB)` and `AddHandler(1, h)` the
entry of `A` has anchor index 0 and the entry of `B` anchor index 1, and an
iteration of the map that visits `B` first (a permutation of its entries)
gives the chain `mB, mA, h`, while the iteration in the other order gives
`mA, mB, h`. -/
theorem anchored_bucket_order_varies :
    (List.reverse (muxOrNew twoAnchors).MiddlewareAnchorMap).Perm
        (muxOrNew twoAnchors).MiddlewareAnchorMap ∧
      mapGet (muxOrNew twoAnchors).MiddlewareAnchorMap "A" = some ⟨"A", "mA", 0, maxIndex⟩ ∧
      mapGet (muxOrNew twoAnchors).MiddlewareAnchorMap "B" = some ⟨"B", "mB", 1, maxIndex⟩ ∧
      dispatch idOfBlock List.reverse twoAnchors [] 1 = .ran ["mB", "mA", "h"] ∧
      dispatch idOfBlock id twoAnchors [] 1 = .ran ["mA", "mB", "h"] :=
  ⟨List.reverse_perm _, by decide, by decide, by decide, by decide⟩

/-! ## Registration -/

/-- C3, amended (registration window). For every sequence of `Use`, `UnUse` and
`AddHandler` calls on a server made by `NewTcpX` in which no call panics, every
message id `m` whose anchor index (recorded by the last `AddHandler(m, ...)`)
is at most `NOT_EXPIRE`, and every key `K`: the middleware registered under `K`
is in the chain of `m` if and only if `K` is active when the last
`AddHandler(m, ...)` is called (the last call before it that passes `K` to
`Use` or `UnUse` is a `Use`) and `K` is not passed to `Use` again after it.
Sequences in which `K` is not active at that `AddHandler`, is not passed to
`Use` afterwards and is passed to `UnUse` afterwards are left out. Witnesses,
for every iteration order of the anchor map: after scenario B (with
`NOT_EXPIRE` at least 6) id 1 runs `mA, h1`, id 2 runs `mA` and `mB` in the
order of the iteration and then `h2`, id 3 runs `mB, h3`; after the example of
the comment of `UnUse` (with `NOT_EXPIRE` at least 5) id 1 runs both
middlewares in the order of the iteration and then `SayHello`, id 3 runs
`Middleware1, SayGoodBye`. -/
theorem registration_window :
    (∀ (H B E : Type) (NOT_EXPIRE : Nat) (before after : List (Call H)) (m : Int)
        (hs : List H) (K : String) (tcpx : TcpX H) (mux : Mux H)
        (MessageIDOf : B → Except E Int)
        (range : List (String × MiddlewareAnchor H) → List (String × MiddlewareAnchor H))
        (stream : B),
      runCalls NOT_EXPIRE NewTcpX (before ++ Call.AddHandler m hs :: after) = (tcpx, none) →
      tcpx.Mux = some mux →
      (∀ c ∈ after, c.adds m = false) →
      mux.AnchorIndexOfMessageID m ≤ NOT_EXPIRE →
      (activeAfter K false before = false → (∀ c ∈ after, c.uses K = false) →
        ∀ c ∈ after, c.unUses K = false) →
      MessageIDOf stream = .ok m →
      (range mux.MiddlewareAnchorMap).Perm mux.MiddlewareAnchorMap →
      ∃ (bucket : List (MiddlewareAnchor H)) (handler : H),
        hs.getLast? = some handler ∧
        dispatch MessageIDOf range tcpx [] stream
          = .ran (mux.GlobalMiddlewares ++ bucket.map (fun a => a.Middleware)
              ++ (mapGet mux.MessageIDSelfMiddleware m).getD [] ++ [handler]) ∧
        bucket.Sublist (mapValues (range mux.MiddlewareAnchorMap)) ∧
        ((∃ a ∈ bucket, a.MiddlewareKey = K)
          ↔ activeAfter K false before = true ∧ ∀ c ∈ after, c.uses K = false)) ∧
    (∀ (NOT_EXPIRE : Nat)
        (range : List (String × MiddlewareAnchor String)
          → List (String × MiddlewareAnchor String)),
      6 ≤ NOT_EXPIRE → (∀ m, (range m).Perm m) →
      dispatch idOfBlock range (runCalls NOT_EXPIRE NewTcpX scenarioBCalls).1 [] 1
          = .ran ["mA", "h1"] ∧
        (∃ bucket : List String, bucket.Perm ["mA", "mB"] ∧
          dispatch idOfBlock range (runCalls NOT_EXPIRE NewTcpX scenarioBCalls).1 [] 2
            = .ran (bucket ++ ["h2"])) ∧
        dispatch idOfBlock range (runCalls NOT_EXPIRE NewTcpX scenarioBCalls).1 [] 3
          = .ran ["mB", "h3"]) ∧
    (∀ (NOT_EXPIRE : Nat)
        (range : List (String × MiddlewareAnchor String)
          → List (String × MiddlewareAnchor String)),
      5 ≤ NOT_EXPIRE → (∀ m, (range m).Perm m) →
      (∃ bucket : List String, bucket.Perm ["Middleware1", "Middleware2"] ∧
          dispatch idOfBlock range (runCalls NOT_EXPIRE NewTcpX unUseExampleCalls).1 [] 1
            = .ran (bucket ++ ["SayHello"])) ∧
        dispatch idOfBlock range (runCalls NOT_EXPIRE NewTcpX unUseExampleCalls).1 [] 3
          = .ran ["Middleware1", "SayGoodBye"]) := by
  refine ⟨?_, ?_, ?_⟩
  · intro H B E NE before after m hs K tcpx mux MessageIDOf range stream
      hrun hmux hlast hbound hslip hid hrange
    exact window_of_calls NE before after m hs K tcpx mux MessageIDOf range stream
      hrun hmux hlast hbound hslip hid hrange
  · intro NE range hNE hrange
    exact scenarioB_chains NE hNE range hrange
  · intro NE range hNE hrange
    exact unUseExample_chains NE hNE range hrange

/-- Instance of the amended C3 on scenario B: key `A` and message id 1, with
`UnUse("A")` called after `AddHandler(1, h1)`, under the reverse iteration. -/
theorem registration_window_witness :
    ∃ (bucket : List (MiddlewareAnchor String)) (handler : String),
      ["h1"].getLast? = some handler ∧
      dispatch idOfBlock List.reverse scenarioB [] 1
        = .ran ((muxOrNew scenarioB).GlobalMiddlewares ++ bucket.map (fun a => a.Middleware)
            ++ (mapGet (muxOrNew scenarioB).MessageIDSelfMiddleware 1).getD [] ++ [handler]) ∧
      bucket.Sublist (mapValues (List.reverse (muxOrNew scenarioB).MiddlewareAnchorMap)) ∧
      ((∃ a ∈ bucket, a.MiddlewareKey = "A")
        ↔ activeAfter "A" false ([.Use [("A", "mA")]] : List (Call String)) = true
          ∧ ∀ c ∈ ([.Use [("B", "mB")], .AddHandler 2 ["h2"], .UnUse ["A"],
              .AddHandler 3 ["h3"]] : List (Call String)), c.uses "A" = false) :=
  registration_window.1 String Int String maxIndex [.Use [("A", "mA")]]
    [.Use [("B", "mB")], .AddHandler 2 ["h2"], .UnUse ["A"], .AddHandler 3 ["h3"]]
    1 ["h1"] "A" scenarioB (muxOrNew scenarioB) idOfBlock List.reverse 1
    (by decide) (by decide) (by decide) (by decide) (fun h => absurd h (by decide)) rfl
    (List.reverse_perm _)

/-- C3 as stated fails. After `Use("A", mA)`, `AddHandler(1, h1)`,
`Use("A", mA2)` the chain of id 1 is `h1` alone, although `Use("A", ...)` was
called before `AddHandler(1, h1)` and `UnUse("A")` never. After `Use("A", mA)`,
`UnUse("A")`, `Use("A", mA)`, `AddHandler(1, h1)` the chain of id 1 is
`mA, h1`, although `UnUse("A")` was called before `AddHandler(1, h1)`. In
scenario B an iteration of the anchor map that visits `B` first makes id 2
run `mB, mA, h2`. After `Use("A", mA)` the call `UnUse("B")` panics, so that
`AddHandler(1, h1)` is not made and id 1 has no chain. With `NOT_EXPIRE = 1`,
after `Use("A", mA)`, `AddHandler(1, h1)` the chain of id 1 is `h1` alone. -/
theorem stated_window_fails :
    runCalls maxIndex NewTcpX
        [.Use [("A", "mA")], .AddHandler 1 ["h1"], .Use [("A", "mA2")]] = (useAgain, none) ∧
    dispatch idOfBlock id useAgain [] 1 = .ran ["h1"] ∧
    runCalls maxIndex NewTcpX
        [.Use [("A", "mA")], .UnUse ["A"], .Use [("A", "mA")], .AddHandler 1 ["h1"]]
      = (useAfterUnUse, none) ∧
    dispatch idOfBlock id useAfterUnUse [] 1 = .ran ["mA", "h1"] ∧
    (List.reverse (muxOrNew scenarioB).MiddlewareAnchorMap).Perm
      (muxOrNew scenarioB).MiddlewareAnchorMap ∧
    dispatch idOfBlock List.reverse scenarioB [] 2 = .ran ["mB", "mA", "h2"] ∧
    (runCalls maxIndex NewTcpX
        [.Use [("A", "mA")], .UnUse ["B"], .AddHandler 1 ["h1"]]).2
      = some (.unUseKeyNotFound "B") ∧
    dispatch idOfBlock id
        (runCalls maxIndex NewTcpX
          [.Use [("A", "mA")], .UnUse ["B"], .AddHandler 1 ["h1"]]).1 [] 1
      = .handlerNotFound 1 ∧
    (runCalls 1 NewTcpX [.Use [("A", "mA")], .AddHandler 1 ["h1"]]).2
      = (none : Option Panic) ∧
    dispatch idOfBlock id
        (runCalls 1 NewTcpX [.Use [("A", "mA")], .AddHandler 1 ["h1"]]).1 [] 1
      = .ran ["h1"] := by
  refine ⟨?_, ?_, ?_, ?_, List.reverse_perm _, ?_, ?_, ?_, ?_, ?_⟩ <;> decide

/-- A second `UnUse` of a retired key moves its expiry to the current counter:
after `Use("A", mA)`, `UnUse("A")`, `AddHandler(1, h1)`, `UnUse("A")` the chain
of id 1 is `mA, h1`, although the handler was added after `A` was retired. -/
theorem unUse_twice_revives :
    runCalls maxIndex NewTcpX
        [.Use [("A", "mA")], .UnUse ["A"], .AddHandler 1 ["h1"], .UnUse ["A"]]
      = (unUseTwice, none) ∧
    dispatch idOfBlock id unUseTwice [] 1 = .ran ["mA", "h1"] := by
  refine ⟨?_, ?_⟩ <;> decide

/-- C4 (`AddHandler` split). On a server with a router (every server made by
`NewTcpX`), `AddHandler` with a non-empty handler list does not panic, and
afterwards the handler of the message id is the last element of the list, the
self-middlewares of the id are the ones it had followed by the preceding
elements of the list in the same order (nothing is added for a list of one
element), and the anchor of the id is recorded with the incremented counter;
with an empty list `AddHandler` panics and leaves the server as it was. -/
theorem addHandler_split (tcpx : TcpX H) (mux : Mux H) (messageID : Int) (hs : List H)
    (hmux : tcpx.Mux = some mux) (hne : hs ≠ []) :
    (AddHandler tcpx messageID hs).2 = none ∧
    (∃ mux2 : Mux H,
      (AddHandler tcpx messageID hs).1.Mux = some mux2 ∧
      mapGet mux2.Handlers messageID = hs.getLast? ∧
      (mapGet mux2.MessageIDSelfMiddleware messageID).getD []
        = (mapGet mux.MessageIDSelfMiddleware messageID).getD [] ++ hs.dropLast ∧
      mapGet mux2.MessageIDAnchorMap messageID = some ⟨messageID, mux.AnchorIndex + 1⟩) ∧
    AddHandler tcpx messageID [] = (tcpx, some (.noHandlers 0)) := by
  obtain ⟨f, hf⟩ : ∃ f, hs.getLast? = some f := by
    cases h : hs.getLast? with
    | none => exact absurd (List.getLast?_eq_none_iff.mp h) hne
    | some f => exact ⟨f, rfl⟩
  rw [AddHandler_eq tcpx mux messageID hs f hmux hf]
  refine ⟨rfl, ⟨_, rfl, ?_, ?_, ?_⟩, by simp [AddHandler]⟩
  · simp [Mux.AddMessageIDAnchor, Mux.AddHandleFunc, mapGet_mapSet_self, hf]
  · by_cases hlen : hs.length > 1
    · simp [hlen, Mux.AddMessageIDAnchor, Mux.AddHandleFunc, Mux.AddMessageIDSelfMiddleware,
        mapGet_mapSet_self]
    · have hdrop : hs.dropLast = [] := by
        match hs, hne, hlen with
        | [a], _, _ => rfl
        | a :: b :: t, _, hlen => simp at hlen
      simp [hlen, Mux.AddMessageIDAnchor, Mux.AddHandleFunc, hdrop]
  · simp [Mux.AddMessageIDAnchor, mapGet_mapSet_self]

/-- Instance of C4 on scenario B: `AddHandler(7, auth, log, h7)`. -/
theorem addHandler_split_witness :
    (AddHandler scenarioB 7 ["auth", "log", "h7"]).2 = none ∧
    (∃ mux2 : Mux String,
      (AddHandler scenarioB 7 ["auth", "log", "h7"]).1.Mux = some mux2 ∧
      mapGet mux2.Handlers 7 = ["auth", "log", "h7"].getLast? ∧
      (mapGet mux2.MessageIDSelfMiddleware 7).getD []
        = (mapGet (muxOrNew scenarioB).MessageIDSelfMiddleware 7).getD []
            ++ ["auth", "log", "h7"].dropLast ∧
      mapGet mux2.MessageIDAnchorMap 7
        = some ⟨7, (muxOrNew scenarioB).AnchorIndex + 1⟩) ∧
    AddHandler scenarioB 7 [] = (scenarioB, some (.noHandlers 0)) :=
  addHandler_split scenarioB (muxOrNew scenarioB) 7 ["auth", "log", "h7"] (by decide)
    (by decide)

/-! ## Transport selection and listen failures -/

/-- C5 (transport selection). For every network name, `ListenAndServe` is
`ListenAndServeTCP` when the name is one of `tcp`, `tcp4`, `tcp6`, `unix`,
`unixpacket` (which serves the stream loop once the listener is bound), is
`ListenAndServeUDP` when the name is one of `udp`, `udp4`, `udp6`, `unixgram`
or begins with `ip` (which serves the datagram loop once the socket is bound),
and for every other name returns the unsupported-network error whatever the
socket layer would answer. -/
theorem transport_selection (netListen netListenPacket : String → String → Option Error)
    (acceptPanic : Option Panic) (network addr : String) :
    (network ∈ ["tcp", "tcp4", "tcp6", "unix", "unixpacket"] →
      ListenAndServe netListen netListenPacket acceptPanic network addr
        = ListenAndServeTCP netListen acceptPanic network addr) ∧
    ((network ∈ ["udp", "udp4", "udp6", "unixgram"] ∨ ∃ rest : String, network = "ip" ++ rest) →
      ListenAndServe netListen netListenPacket acceptPanic network addr
        = ListenAndServeUDP netListenPacket network addr []) ∧
    (network ∉ ["tcp", "tcp4", "tcp6", "unix", "unixpacket"] →
      network ∉ ["udp", "udp4", "udp6", "unixgram"] →
      (¬ ∃ rest : String, network = "ip" ++ rest) →
      ∀ netListen2 netListenPacket2 : String → String → Option Error,
        ListenAndServe netListen2 netListenPacket2 acceptPanic network addr
          = .returned (some (.unsupportedNetwork network))) ∧
    (netListen network addr = none → acceptPanic = none →
      ListenAndServeTCP netListen acceptPanic network addr = .servingStream) ∧
    (netListenPacket network addr = none →
      ListenAndServeUDP netListenPacket network addr [] = .servingDatagram) := by
  refine ⟨ListenAndServe_stream netListen netListenPacket acceptPanic network addr,
    ListenAndServe_datagram netListen netListenPacket acceptPanic network addr, ?_, ?_, ?_⟩
  · intro h1 h2 h3 nl nlp
    exact ListenAndServe_other nl nlp acceptPanic network addr h1 h2 h3
  · intro h1 h2
    simp [ListenAndServeTCP, h1, h2]
  · intro h
    simp [ListenAndServeUDP, h]

/-- Instances of C5: `tcp6` is served by the stream loop, `ip4:icmp` by the
datagram loop, and `http` is refused. -/
theorem transport_selection_witness :
    ListenAndServe bindSucceeds bindSucceeds none "tcp6" ":8080"
        = ListenAndServeTCP bindSucceeds none "tcp6" ":8080" ∧
      ListenAndServe bindSucceeds bindSucceeds none "ip4:icmp" "0.0.0.0"
        = ListenAndServeUDP bindSucceeds "ip4:icmp" "0.0.0.0" [] ∧
      (∀ netListen2 netListenPacket2 : String → String → Option Error,
        ListenAndServe netListen2 netListenPacket2 none "http" ":80"
          = .returned (some (.unsupportedNetwork "http"))) :=
  ⟨(transport_selection bindSucceeds bindSucceeds none "tcp6" ":8080").1 (by decide),
    (transport_selection bindSucceeds bindSucceeds none "ip4:icmp" "0.0.0.0").2.1
      (Or.inr ⟨"4:icmp", by decide⟩),
    (transport_selection bindSucceeds bindSucceeds none "http" ":80").2.2.1 (by decide)
      (by decide)
      (by
        rintro ⟨rest, h⟩
        have := congrArg String.data h
        simp at this)⟩

/-- C8 (listen failure), the code at a failing bind: on the datagram path
`ListenAndServe` panics with the error of `net.ListenPacket` instead of
returning it, whereas on the stream path it returns the error of `net.Listen`. -/
theorem listen_failure_datagram_panics (netListen netListenPacket : String → String → Option Error)
    (acceptPanic : Option Panic) (err : Error) (addr : String) :
    ListenAndServe netListen (fun _ _ => some err) acceptPanic "udp" addr
        = .panicked (.listenPacket err) ∧
      ListenAndServe (fun _ _ => some err) netListenPacket acceptPanic "tcp" addr
        = .returned (some err) :=
  ⟨datagram_bind_failure_panics netListen (fun _ _ => some err) acceptPanic "udp" addr err
      (Or.inl (by decide)) rfl,
    stream_bind_failure_returned (fun _ _ => some err) netListenPacket acceptPanic "tcp" addr err
      (by decide) rfl⟩

/-! ## `OnMessage` mode -/

/-- C6 (`OnMessage` mode). When `OnMessage` is set, for every router and every
received block the chain built from an empty `ctx.handlers` is the global
middlewares in their stored order, then the middleware of every entry of
`MiddlewareAnchorMap` (in the order of the iteration), then `OnMessage` as
last element. The result is the same for every block and every id parser, so
the message id is not looked up and a block with an unknown or unparsable id
runs the same chain; and it is the same whatever the handlers,
self-middlewares and message-id anchors of the router are. -/
theorem onMessage_chain {B E : Type} (MessageIDOf : B → Except E Int)
    (range : List (String × MiddlewareAnchor H) → List (String × MiddlewareAnchor H))
    (tcpx : TcpX H) (mux : Mux H) (stream : B) (onMessage : H)
    (hmode : tcpx.OnMessage = some onMessage) (hmux : tcpx.Mux = some mux)
    (hrange : (range mux.MiddlewareAnchorMap).Perm mux.MiddlewareAnchorMap) :
    ∃ bucket : List (MiddlewareAnchor H),
      bucket.Perm (mapValues mux.MiddlewareAnchorMap) ∧
      dispatch MessageIDOf range tcpx [] stream
        = .ran (mux.GlobalMiddlewares ++ bucket.map (fun a => a.Middleware) ++ [onMessage]) ∧
      (∀ (MessageIDOf2 : B → Except E Int) (stream2 : B),
        dispatch MessageIDOf2 range tcpx [] stream2
          = dispatch MessageIDOf range tcpx [] stream) ∧
      (∀ (handlers : List (Int × H)) (selfs : List (Int × List H))
          (anchors : List (Int × MessageIDAnchor)),
        dispatch MessageIDOf range
            { tcpx with Mux := some { mux with Handlers := handlers,
                                               MessageIDSelfMiddleware := selfs,
                                               MessageIDAnchorMap := anchors } } [] stream
          = dispatch MessageIDOf range tcpx [] stream) := by
  refine ⟨mapValues (range mux.MiddlewareAnchorMap), hrange.map _, ?_, ?_, ?_⟩
  · simpa using dispatch_onMessage_mode MessageIDOf range tcpx mux [] stream onMessage hmode hmux
  · intro M2 s2
    rw [dispatch_onMessage_mode M2 range tcpx mux [] s2 onMessage hmode hmux,
      dispatch_onMessage_mode MessageIDOf range tcpx mux [] stream onMessage hmode hmux]
  · intro hs ss as
    rw [dispatch_onMessage_mode MessageIDOf range
        { tcpx with Mux := some { mux with Handlers := hs,
                                           MessageIDSelfMiddleware := ss,
                                           MessageIDAnchorMap := as } }
        { mux with Handlers := hs, MessageIDSelfMiddleware := ss, MessageIDAnchorMap := as }
        [] stream onMessage hmode rfl,
      dispatch_onMessage_mode MessageIDOf range tcpx mux [] stream onMessage hmode hmux]

/-- Instance of C6 on scenario B with `OnMessage` set, for a block with the unknown id 99. -/
theorem onMessage_chain_witness :
    ∃ bucket : List (MiddlewareAnchor String),
      bucket.Perm (mapValues (muxOrNew onMessageServer).MiddlewareAnchorMap) ∧
      dispatch idOfBlock id onMessageServer [] 99
        = .ran ((muxOrNew onMessageServer).GlobalMiddlewares
            ++ bucket.map (fun a => a.Middleware) ++ ["onMessage"]) ∧
      (∀ (MessageIDOf2 : Int → Except String Int) (stream2 : Int),
        dispatch MessageIDOf2 id onMessageServer [] stream2
          = dispatch idOfBlock id onMessageServer [] 99) ∧
      (∀ (handlers : List (Int × String)) (selfs : List (Int × List String))
          (anchors : List (Int × MessageIDAnchor)),
        dispatch idOfBlock id
            { onMessageServer with
              Mux := some { muxOrNew onMessageServer with
                            Handlers := handlers,
                            MessageIDSelfMiddleware := selfs,
                            MessageIDAnchorMap := anchors } } [] 99
          = dispatch idOfBlock id onMessageServer [] 99) :=
  onMessage_chain idOfBlock id onMessageServer (muxOrNew onMessageServer) 99 "onMessage"
    (by decide) (by decide) (List.Perm.refl _)

/-- C9 (retired middleware in `OnMessage` mode). When `OnMessage` is set, the
middleware of every entry of `MiddlewareAnchorMap` is in the chain of every
block, whatever its anchor and expiry index; and after `UnUse(k)` the entry of
`k` is still in the map, with its expiry index set to the counter, so its
middleware is still in the chain of every block. -/
theorem retired_anchor_runs {B E : Type} (MessageIDOf : B → Except E Int)
    (range : List (String × MiddlewareAnchor H) → List (String × MiddlewareAnchor H))
    (tcpx : TcpX H) (mux : Mux H) (stream : B) (onMessage : H)
    (hmode : tcpx.OnMessage = some onMessage) (hmux : tcpx.Mux = some mux)
    (hrange : ∀ m, (range m).Perm m) :
    (∀ kv ∈ mux.MiddlewareAnchorMap, ∃ chain,
      dispatch MessageIDOf range tcpx [] stream = .ran chain ∧ kv.2.Middleware ∈ chain) ∧
    (∀ (k : String) (a : MiddlewareAnchor H), mapGet mux.MiddlewareAnchorMap k = some a →
      (UnUse tcpx [k]).2 = none ∧
      ∃ (mux2 : Mux H) (chain : List H),
        (UnUse tcpx [k]).1.Mux = some mux2 ∧
        mapGet mux2.MiddlewareAnchorMap a.MiddlewareKey
          = some { a with ExpireAnchorIndex := mux.AnchorIndex } ∧
        dispatch MessageIDOf range (UnUse tcpx [k]).1 [] stream = .ran chain ∧
        a.Middleware ∈ chain) := by
  have key : ∀ (t : TcpX H) (m : Mux H), t.OnMessage = some onMessage → t.Mux = some m →
      ∀ kv ∈ m.MiddlewareAnchorMap, ∃ chain,
        dispatch MessageIDOf range t [] stream = .ran chain ∧ kv.2.Middleware ∈ chain := by
    intro t m ht hm kv hkv
    refine ⟨_, dispatch_onMessage_mode MessageIDOf range t m [] stream onMessage ht hm, ?_⟩
    have : kv ∈ range m.MiddlewareAnchorMap := (hrange _).mem_iff.mpr hkv
    simp only [List.mem_append, List.mem_map, mapValues]
    exact Or.inl (Or.inr ⟨kv.2, ⟨kv, this, rfl⟩, rfl⟩)
  refine ⟨key tcpx mux hmode hmux, ?_⟩
  intro k a hka
  have hun : UnUse tcpx [k] = ({ tcpx with Mux := some (mux.ReplaceMiddlewareAnchor
      { a with ExpireAnchorIndex := mux.CurrentAnchorIndex }) }, none) := by
    simp [UnUse, hmux, unUseLoop, hka]
  rw [hun]
  have hget : mapGet (mux.ReplaceMiddlewareAnchor
      { a with ExpireAnchorIndex := mux.CurrentAnchorIndex }).MiddlewareAnchorMap
      a.MiddlewareKey = some { a with ExpireAnchorIndex := mux.AnchorIndex } := by
    simp [Mux.ReplaceMiddlewareAnchor, Mux.CurrentAnchorIndex, mapGet_mapSet_self]
  obtain ⟨chain, hc, hin⟩ := key _ _ (show ({ tcpx with Mux := some (mux.ReplaceMiddlewareAnchor
      { a with ExpireAnchorIndex := mux.CurrentAnchorIndex }) } : TcpX H).OnMessage
        = some onMessage from hmode) rfl _ (mapGet_mem _ _ _ hget)
  exact ⟨rfl, _, chain, rfl, hget, hc, hin⟩

/-- Instance of C9 on scenario B with `OnMessage` set, where `A` has been retired. -/
theorem retired_anchor_runs_witness :
    (∀ kv ∈ (muxOrNew onMessageServer).MiddlewareAnchorMap, ∃ chain,
      dispatch idOfBlock List.reverse onMessageServer [] 3 = .ran chain
        ∧ kv.2.Middleware ∈ chain) ∧
    (∀ (k : String) (a : MiddlewareAnchor String),
      mapGet (muxOrNew onMessageServer).MiddlewareAnchorMap k = some a →
      (UnUse onMessageServer [k]).2 = none ∧
      ∃ (mux2 : Mux String) (chain : List String),
        (UnUse onMessageServer [k]).1.Mux = some mux2 ∧
        mapGet mux2.MiddlewareAnchorMap a.MiddlewareKey
          = some { a with ExpireAnchorIndex := (muxOrNew onMessageServer).AnchorIndex } ∧
        dispatch idOfBlock List.reverse (UnUse onMessageServer [k]).1 [] 3 = .ran chain ∧
        a.Middleware ∈ chain) :=
  retired_anchor_runs idOfBlock List.reverse onMessageServer (muxOrNew onMessageServer) 3
    "onMessage" (by decide) (by decide) (fun m => List.reverse_perm m)

/-! ## Panics and undecodable datagrams -/

/-- C7 (handler panic containment), the code at a panicking handler: the task of
a stream connection recovers the panic after closing the connection, and reads
no further block; the task of a datagram has no deferred `recover`, so the
same panic leaves the task. -/
theorem handler_panic_escapes_datagram_task :
    connTask panicBehaviour idOfBlock id panicServer [.ok 1, .ok 1]
        = ([.ran ["boom"], .connClosed, .recovered (.user "boom")], .finished) ∧
      datagramTask panicBehaviour idOfBlock id panicServer 1
        = ([.ran ["boom"]], .crashed (.user "boom")) := by
  constructor <;> decide

/-- C10 (the datagram reader stops at the first undecodable datagram). If
`FirstBlockOfBytes` fails on a datagram and succeeds on every datagram before
it, the reader hands exactly the datagrams before it to a datagram task, once
each and in order, and none of the later ones, whatever they contain. -/
theorem udpReader_stops_at_first_failure {Buf A B E : Type}
    (FirstBlockOfBytes : Buf → Except E B)
    (before : List (Buf × A)) (d : Buf × A) (later : List (Except E (Buf × A))) (e : E)
    (hbefore : ∀ x ∈ before, ∃ b, FirstBlockOfBytes x.1 = .ok b)
    (hd : FirstBlockOfBytes d.1 = .error e) :
    udpReader FirstBlockOfBytes (before.map .ok ++ .ok d :: later)
        = udpReader FirstBlockOfBytes (before.map .ok) ∧
      List.Forall₂ (fun x y => y.1 = x.2 ∧ FirstBlockOfBytes x.1 = .ok y.2) before
        (udpReader FirstBlockOfBytes (before.map .ok)) := by
  induction before with
  | nil => simp [udpReader, hd]
  | cons x t ih =>
    obtain ⟨b, hb⟩ := hbefore x (List.mem_cons_self _ _)
    obtain ⟨ih1, ih2⟩ := ih (fun y hy => hbefore y (List.mem_cons_of_mem _ hy))
    obtain ⟨buf, addr⟩ := x
    simp only [List.map_cons, List.cons_append, udpReader]
    simp only at hb
    simp only [hb]
    exact ⟨congrArg (fun l => (addr, b) :: l) ih1, List.Forall₂.cons ⟨rfl, hb⟩ ih2⟩

/-- Instance of C10: the third of four datagrams is empty. -/
theorem udpReader_stops_at_first_failure_witness :
    udpReader decodeNonEmpty
        ([([1, 2], "a"), ([3], "b")].map .ok ++ .ok ([], "c") :: [.ok ([4, 5, 6], "d")])
        = udpReader decodeNonEmpty ([([1, 2], "a"), ([3], "b")].map .ok) ∧
      List.Forall₂ (fun x y => y.1 = x.2 ∧ decodeNonEmpty x.1 = .ok y.2)
        [([1, 2], "a"), ([3], "b")]
        (udpReader decodeNonEmpty ([([1, 2], "a"), ([3], "b")].map .ok)) :=
  udpReader_stops_at_first_failure decodeNonEmpty [([1, 2], "a"), ([3], "b")] ([], "c")
    [.ok ([4, 5, 6], "d")] "short"
    (by
      intro x hx
      simp only [List.mem_cons, List.mem_singleton, List.mem_nil_iff, or_false] at hx
      rcases hx with rfl | rfl
      · exact ⟨2, rfl⟩
      · exact ⟨1, rfl⟩)
    rfl

end Tcpx
